import Mathlib

/-!
Verification of the SQL-safety validation pipeline of the DemirAI v2 service
(`src/main.py`).

Strings are modelled as `List Char`.  The Python regular expressions used by
the code (`\b(insert|...)\b`, `^(select|with)\b`, `\blimit\b`,
`\blimit\s+(\d+)\b`, `re.sub(r"(?i)\blimit\s+\d+\b", ...)`, `\{.*\}`) are
embedded as explicit recursive scanners over character lists.  The `\w`,
`\s` and `\d` character classes and `str.lower`/`str.strip` are modelled at
ASCII level (the SQL strings the validator handles are ASCII); Python's
word-boundary `\b` is the flip between word characters
(letters/digits/underscore) and non-word characters.
-/

/-- ASCII model of Python whitespace as used by `str.strip` and `\s`:
space, tab, newline, carriage return, vertical tab, form feed. -/
def isPySpace (c : Char) : Bool :=
  c = ' ' || c = '\t' || c = '\n' || c = '\r' || c = '\x0b' || c = '\x0c'

/-- Decimal digit (`\d` at ASCII level, also used by `int(...)`). -/
def isDigitB (c : Char) : Bool := 48 ≤ c.toNat && c.toNat ≤ 57

/-- ASCII uppercase letter. -/
def isAsciiUpperB (c : Char) : Bool := 65 ≤ c.toNat && c.toNat ≤ 90

/-- ASCII lowercase letter. -/
def isAsciiLowerB (c : Char) : Bool := 97 ≤ c.toNat && c.toNat ≤ 122

/-- Word character for Python's `\b`/`\w` (ASCII model): letter, digit or
underscore. -/
def isWordChar (c : Char) : Bool :=
  isAsciiUpperB c || isAsciiLowerB c || isDigitB c || c = '_'

/-- ASCII model of `str.lower` on a single character. -/
def lowerChar (c : Char) : Char :=
  if isAsciiUpperB c then Char.ofNat (c.toNat + 32) else c

/-- `str.lower`. -/
def lowerStr (s : List Char) : List Char := s.map lowerChar

/-- `str.strip()`: drop Python whitespace from both ends. -/
def pyStrip (s : List Char) : List Char :=
  (((s.dropWhile isPySpace).reverse).dropWhile isPySpace).reverse

/-- Boolean "is a prefix of" (plain, case-sensitive). -/
def isPrefixB : List Char → List Char → Bool
  | [], _ => true
  | _ :: _, [] => false
  | p :: ps, c :: cs => p == c && isPrefixB ps cs

/-- Python's substring containment `pat in s` (case-sensitive). -/
def containsSub (pat : List Char) : List Char → Bool
  | [] => isPrefixB pat []
  | c :: cs => isPrefixB pat (c :: cs) || containsSub pat cs

/-- Python's `str.split(";")`. -/
def splitSemi : List Char → List (List Char)
  | [] => [[]]
  | c :: cs =>
    if c = ';' then [] :: splitSemi cs
    else
      match splitSemi cs with
      | [] => [[c]]
      | t :: ts => (c :: t) :: ts

/-- `_single_statement` from `src/main.py`: split the stripped SQL on `;`,
strip each part, keep the non-empty ones, and require exactly one. -/
def singleStatement (sql : List Char) : Bool :=
  (((splitSemi (pyStrip sql)).map pyStrip).filter (fun p => !p.isEmpty)).length == 1

/-- Proof auxiliary: the number of `;`-separated segments of `s` that
contain a non-whitespace character, `seen` recording whether the current
segment already has one.  `segCount false` computes in one pass what
`singleStatement` computes via `splitSemi`. -/
def segCount : Bool → List Char → Nat
  | seen, [] => if seen then 1 else 0
  | seen, c :: cs =>
    if c = ';' then (if seen then 1 else 0) + segCount false cs
    else segCount (seen || !isPySpace c) cs

/-- Proof auxiliary: the "previous character is a word character" state
after scanning `xs` starting from state `pw`. -/
def pwAfter (pw : Bool) (xs : List Char) : Bool :=
  match xs.getLast? with
  | none => pw
  | some y => isWordChar y

/-- Proof auxiliary: the pointwise comparison of `pat` against `t` hits a
mismatch before either list ends (so `pat` is not a prefix of `t ++ k`
for any continuation `k`). -/
def mismatchEarly : List Char → List Char → Bool
  | [], _ => false
  | _ :: _, [] => false
  | p :: ps, c :: cs => !(p == c) || mismatchEarly ps cs

/-- Case-insensitive keyword-prefix stripper: if `lowerChar`-ing the first
`kw.length` characters of `s` yields `kw`, return the remainder. -/
def stripPrefixLower : List Char → List Char → Option (List Char)
  | [], s => some s
  | _ :: _, [] => none
  | k :: ks, c :: cs => if lowerChar c = k then stripPrefixLower ks cs else none

/-- Word boundary `\b` after a word-character match: end of input or a
non-word character. -/
def boundaryOk : List Char → Bool
  | [] => true
  | c :: _ => !isWordChar c

/-- Case-insensitive whole-keyword match anchored at the head of `s`
(keyword followed by `\b`). -/
def kwHeadMatch (kw : List Char) (s : List Char) : Bool :=
  match stripPrefixLower kw s with
  | some r => boundaryOk r
  | none => false

/-- A whole-word match of `kw` at the current position: the previous
character (tracked by `pw` = "previous character is a word character")
must not be a word character, and the keyword must match with a trailing
boundary. -/
def wordMatchAt (kw : List Char) (pw : Bool) (s : List Char) : Bool :=
  !pw && kwHeadMatch kw s

/-- `re.search(r"\bkw\b", s, re.IGNORECASE) is not None` for a keyword of
word characters: scan every position, tracking whether the previous
character is a word character. -/
def searchWord (kw : List Char) : Bool → List Char → Bool
  | _, [] => false
  | pw, c :: cs => wordMatchAt kw pw (c :: cs) || searchWord kw (isWordChar c) cs

def selectKw : List Char := ("select").toList

def withKw : List Char := ("with").toList

def limitKw : List Char := ("limit").toList

def martLit : List Char := ("mart.").toList

/-- `re.match(r"^(select|with)\b", s, re.IGNORECASE) is not None`. -/
def startsKw (s : List Char) : Bool :=
  kwHeadMatch selectKw s || kwHeadMatch withKw s

/-- The `BANNED` keyword alternation from `src/main.py`. -/
def bannedKws : List (List Char) :=
  [("insert").toList, ("update").toList, ("delete").toList, ("drop").toList,
   ("alter").toList, ("create").toList, ("truncate").toList, ("grant").toList,
   ("revoke").toList, ("vacuum").toList, ("copy").toList]

/-- `BANNED.search(s) is not None`. -/
def containsBanned (s : List Char) : Bool :=
  bannedKws.any (fun kw => searchWord kw false s)

/-- The `" from " in lowered or "\nfrom " in lowered or "\tfrom " in lowered`
test of `validate_sql`. -/
def fromClausePresent (lowered : List Char) : Bool :=
  containsSub (" from ").toList lowered ||
  containsSub ("\nfrom ").toList lowered ||
  containsSub ("\tfrom ").toList lowered

/-- `int(...)` on a run of decimal digits. -/
def digitsVal (ds : List Char) : Nat :=
  ds.foldl (fun a c => a * 10 + (c.toNat - 48)) 0

/-- Match of `\blimit\s+(\d+)\b` anchored at the head of `s` (the leading
`\b` is checked by the caller): the keyword `limit` case-insensitively,
then one or more whitespace characters, then one or more digits, then a
word boundary.  Returns the captured number and the rest of the input. -/
def matchLimitNum (s : List Char) : Option (Nat × List Char) :=
  match stripPrefixLower limitKw s with
  | none => none
  | some r1 =>
    let sp := r1.takeWhile isPySpace
    let r2 := r1.dropWhile isPySpace
    if sp.isEmpty then none
    else
      let ds := r2.takeWhile isDigitB
      let r3 := r2.dropWhile isDigitB
      if ds.isEmpty then none
      else if boundaryOk r3 then some (digitsVal ds, r3) else none

theorem stripPrefixLower_length {kw s r : List Char}
    (h : stripPrefixLower kw s = some r) : s.length = kw.length + r.length := by
  induction kw generalizing s with
  | nil => simp [stripPrefixLower] at h; simp [h]
  | cons k ks ih =>
    cases s with
    | nil => simp [stripPrefixLower] at h
    | cons c cs =>
      simp only [stripPrefixLower] at h
      split at h
      · have := ih h
        simp [this]; omega
      · exact absurd h (by simp)

theorem matchLimitNum_rest_lt {s : List Char} {n : Nat} {rest : List Char}
    (h : matchLimitNum s = some (n, rest)) : rest.length < s.length := by
  unfold matchLimitNum at h
  cases hs : stripPrefixLower limitKw s with
  | none => rw [hs] at h; exact absurd h (by simp)
  | some r1 =>
    rw [hs] at h
    simp only at h
    split at h
    · exact absurd h (by simp)
    · split at h
      · exact absurd h (by simp)
      · split at h
        · simp only [Option.some.injEq, Prod.mk.injEq] at h
          obtain ⟨-, h2⟩ := h
          subst h2
          have hlen := stripPrefixLower_length hs
          have h3 : ((r1.dropWhile isPySpace).dropWhile isDigitB).length ≤ r1.length :=
            le_trans ((List.dropWhile_sublist isDigitB).length_le)
              ((List.dropWhile_sublist isPySpace).length_le)
          have hk : limitKw.length = 5 := by decide
          omega
        · exact absurd h (by simp)

/-- The value of the first (leftmost) match of `\blimit\s+(\d+)\b`:
`re.search(r"\blimit\s+(\d+)\b", lowered)` and `int(m.group(1))`. -/
def firstLimitNum : Bool → List Char → Option Nat
  | _, [] => none
  | pw, c :: cs =>
    if pw then firstLimitNum (isWordChar c) cs
    else
      match matchLimitNum (c :: cs) with
      | some (n, _) => some n
      | none => firstLimitNum (isWordChar c) cs

/-- Fuel-indexed scanner for the values of all (left-to-right,
non-overlapping) matches of `(?i)\blimit\s+\d+\b`.  The fuel only makes
the recursion structural; `limitNums` instantiates it with enough fuel,
and `limitNumsF_fuel` shows the result does not depend on the fuel. -/
def limitNumsF : Nat → Bool → List Char → List Nat
  | _, _, [] => []
  | 0, _, _ :: _ => []
  | fuel + 1, pw, c :: cs =>
    if pw then limitNumsF fuel (isWordChar c) cs
    else
      match matchLimitNum (c :: cs) with
      | some (n, rest) => n :: limitNumsF fuel true rest
      | none => limitNumsF fuel (isWordChar c) cs

/-- The values of all (left-to-right, non-overlapping) matches of
`(?i)\blimit\s+\d+\b`, in order — the matches `re.sub` rewrites. -/
def limitNums (pw : Bool) (s : List Char) : List Nat :=
  limitNumsF s.length pw s

/-- Fuel-indexed body of `re.sub(r"(?i)\blimit\s+\d+\b", "LIMIT " + d, s)`;
see `subLimit`. -/
def subLimitF (d : List Char) : Nat → Bool → List Char → List Char
  | _, _, [] => []
  | 0, _, c :: cs => c :: cs
  | fuel + 1, pw, c :: cs =>
    if pw then c :: subLimitF d fuel (isWordChar c) cs
    else
      match matchLimitNum (c :: cs) with
      | some (_, rest) => ("LIMIT ").toList ++ d ++ subLimitF d fuel true rest
      | none => c :: subLimitF d fuel (isWordChar c) cs

/-- `re.sub(r"(?i)\blimit\s+\d+\b", "LIMIT " + d, s)`: replace every
left-to-right non-overlapping match by the replacement text.  After a
match, scanning resumes after the matched span; the character before the
resume point is the final digit of the match, a word character, so `pw`
is `true` there. -/
def subLimit (d : List Char) (pw : Bool) (s : List Char) : List Char :=
  subLimitF d s.length pw s

/-- Decimal digit characters, for `f"LIMIT {MAX_ROWS}"`. -/
def digitChar : Nat → Char
  | 0 => '0' | 1 => '1' | 2 => '2' | 3 => '3' | 4 => '4'
  | 5 => '5' | 6 => '6' | 7 => '7' | 8 => '8' | _ => '9'

/-- Fuel-indexed decimal printer; see `natDigits`. -/
def natDigitsF : Nat → Nat → List Char
  | 0, n => [digitChar n]
  | fuel + 1, n =>
    if n < 10 then [digitChar n] else natDigitsF fuel (n / 10) ++ [digitChar (n % 10)]

/-- Decimal representation of a natural number, as produced by Python
string formatting of a non-negative int. -/
def natDigits (n : Nat) : List Char :=
  natDigitsF n n

instance exceptDecEq {e a : Type} [DecidableEq e] [DecidableEq a] :
    DecidableEq (Except e a) := fun x y =>
  match x, y with
  | .ok v, .ok w =>
    if h : v = w then .isTrue (by rw [h]) else .isFalse (fun hh => h (Except.ok.inj hh))
  | .error v, .error w =>
    if h : v = w then .isTrue (by rw [h]) else .isFalse (fun hh => h (Except.error.inj hh))
  | .ok _, .error _ => .isFalse (fun hh => Except.noConfusion hh)
  | .error _, .ok _ => .isFalse (fun hh => Except.noConfusion hh)

/-- The validation errors of `validate_sql`, named as in the specification. -/
inductive VErr where
  | emptyOutput
  | notAReadQuery
  | forbiddenKeyword
  | multipleStatements
  | schemaNotAllowed
  | limitRequired
deriving DecidableEq

/-- `validate_sql` from `src/main.py`, parameterised by the configured
`MAX_ROWS`.  The checks run in source order; the final step clamps the
first-found `LIMIT <int>` value by rewriting with `re.sub` when it
exceeds the cap. -/
def validate_sql (maxRows : Nat) (sql : List Char) : Except VErr (List Char) :=
  if sql.isEmpty then .error .emptyOutput
  else
    let s := pyStrip sql
    if !startsKw s then .error .notAReadQuery
    else if containsBanned s then .error .forbiddenKeyword
    else if !singleStatement s then .error .multipleStatements
    else
      let lowered := lowerStr s
      if fromClausePresent lowered && !containsSub martLit lowered then
        .error .schemaNotAllowed
      else if !searchWord limitKw false lowered then .error .limitRequired
      else
        match firstLimitNum false lowered with
        | some lim =>
          if maxRows < lim then .ok (subLimit (natDigits maxRows) false s) else .ok s
        | none => .ok s

/-- The spec's description of the FROM detection ("the token `from`
preceded by start-of-line or whitespace"), written from the spec's words
for comparison with the code's substring test `fromClausePresent`:
an occurrence of `from` preceded by the start of the text or a whitespace
character and followed by a word boundary. -/
def specFromToken : Bool → List Char → Bool
  | _, [] => false
  | atStartOrWs, c :: cs =>
    (atStartOrWs && kwHeadMatch (("from").toList) (c :: cs)) ||
      specFromToken (isPySpace c) cs

/-- The claim's `^(SELECT|WITH)` prefix test (case-insensitive, without
the code's trailing `\b`). -/
def startsSelectOrWith (s : List Char) : Bool :=
  (stripPrefixLower selectKw s).isSome || (stripPrefixLower withKw s).isSome

/-- Python's `str.startswith` for a single character. -/
def headIs (c : Char) (s : List Char) : Bool :=
  match s with
  | [] => false
  | x :: _ => x = c

/-- Python's `str.endswith` for a single character. -/
def lastIs (c : Char) (s : List Char) : Bool :=
  match s.getLast? with
  | none => false
  | some x => x = c

/-- Suffix of `s` starting at the first opening brace, if any. -/
def dropToBrace : List Char → Option (List Char)
  | [] => none
  | c :: cs => if c = '\x7b' then some (c :: cs) else dropToBrace cs

/-- Suffix of a reversed string starting at the first closing brace seen
from the end, if any. -/
def dropToCloseRev : List Char → Option (List Char)
  | [] => none
  | c :: cs => if c = '\x7d' then some (c :: cs) else dropToCloseRev cs

/-- `re.search(r"\{.*\}", t, flags=re.DOTALL)`: the leftmost-then-greedy
match runs from the first opening brace to the last closing brace after
it (DOTALL lets `.` span newlines). -/
def braceSpan (t : List Char) : Option (List Char) :=
  match dropToBrace t with
  | none => none
  | some u =>
    match dropToCloseRev u.reverse with
    | none => none
    | some v => some v.reverse

/-- `_extract_json` from `src/main.py` (the `or ""` for a `None` response
is resolved before this model, so the input is a plain string). -/
def extract_json (text : List Char) : List Char :=
  let t := pyStrip text
  if headIs '\x7b' t && lastIs '\x7d' t then t
  else
    match braceSpan t with
    | some m => m
    | none => t

/-- The bridge failure of interest here: `json.loads` failed and the
HTTP 502 carries the first 300 characters of the candidate. -/
inductive BridgeErr where
  | modelOutputUnparseable (excerpt : List Char)
deriving DecidableEq

/-- The tail of `ollama_json` from `src/main.py`: extract the candidate
JSON from the model response text and parse it; `json.loads` is
abstracted as a caller-supplied parser.  On parse failure the error
carries `raw[:300]`. -/
def ollama_json_tail {J : Type} (parse : List Char → Option J)
    (response : List Char) : Except BridgeErr J :=
  let raw := extract_json response
  match parse raw with
  | some j => .ok j
  | none => .error (.modelOutputUnparseable (raw.take 300))

/-- Python runtime values as seen by `to_jsonable`: `Decimal` payloads of
type `D`, `float` payloads of type `F`, `date`/`datetime` payloads of
type `T`, strings, ints, bools, `None`, dicts (string-keyed, as produced
by the dict-row factory), lists and tuples. -/
inductive PVal (D F T : Type) where
  | vdec (x : D)
  | vfloat (x : F)
  | vdt (x : T)
  | vstr (s : List Char)
  | vint (n : Int)
  | vbool (b : Bool)
  | vnone
  | vdict (kvs : List (List Char × PVal D F T))
  | vlist (xs : List (PVal D F T))
  | vtuple (xs : List (PVal D F T))

mutual

/-- `to_jsonable` from `src/main.py`: `Decimal → float` (the conversion
`float(x)` abstracted as `decToFloat`), `datetime`/`date → x.isoformat()`
(abstracted as `isoStr`), dicts/lists/tuples converted element-wise (a
tuple becomes a list, as the Python code builds a list comprehension),
everything else returned unchanged. -/
def to_jsonable {D F T : Type} (decToFloat : D → F) (isoStr : T → List Char) :
    PVal D F T → PVal D F T
  | .vdec x => .vfloat (decToFloat x)
  | .vdt x => .vstr (isoStr x)
  | .vdict kvs => .vdict (to_jsonable_kvs decToFloat isoStr kvs)
  | .vlist xs => .vlist (to_jsonable_seq decToFloat isoStr xs)
  | .vtuple xs => .vlist (to_jsonable_seq decToFloat isoStr xs)
  | .vfloat x => .vfloat x
  | .vstr s => .vstr s
  | .vint n => .vint n
  | .vbool b => .vbool b
  | .vnone => .vnone

/-- The dict comprehension `{k: to_jsonable(v) for k, v in x.items()}`. -/
def to_jsonable_kvs {D F T : Type} (decToFloat : D → F) (isoStr : T → List Char) :
    List (List Char × PVal D F T) → List (List Char × PVal D F T)
  | [] => []
  | (k, v) :: rest =>
    (k, to_jsonable decToFloat isoStr v) :: to_jsonable_kvs decToFloat isoStr rest

/-- The list comprehension `[to_jsonable(v) for v in x]`. -/
def to_jsonable_seq {D F T : Type} (decToFloat : D → F) (isoStr : T → List Char) :
    List (PVal D F T) → List (PVal D F T)
  | [] => []
  | v :: rest =>
    to_jsonable decToFloat isoStr v :: to_jsonable_seq decToFloat isoStr rest

end

/-- `dict.get`: the value of the first binding of key `c`, if present
(Python dict keys are unique; the association list models a dict). -/
def rowGet {V : Type} (r : List (List Char × Option V)) (c : List Char) :
    Option (Option V) :=
  match r with
  | [] => none
  | (k, v) :: rest => if k = c then some v else rowGet rest c

/-- The test `r.get(c) is None`: true when the key is absent or its value
is the null value. -/
def isNullAt {V : Type} (r : List (List Char × Option V)) (c : List Char) : Bool :=
  match rowGet r c with
  | none => true
  | some none => true
  | some (some _) => false

/-- `summarize_rows` from `src/main.py`: empty input gives row count 0 and
an empty null map; otherwise the columns are the keys of the first row, and
each column's null count is the number of rows whose value at that column
is null (the imperative per-row loop accumulates exactly this count). -/
def summarize_rows {V : Type} (rows : List (List (List Char × Option V))) :
    Nat × List (List Char × Nat) :=
  match rows with
  | [] => (0, [])
  | r0 :: rest =>
    ((r0 :: rest).length,
      (r0.map Prod.fst).map
        (fun c => (c, (r0 :: rest).countP (fun r => isNullAt r c))))

/-! ## Character-level lemmas -/

theorem char_toNat_ofNat_valid (n : Nat) (h : n < 55296) : (Char.ofNat n).toNat = n := by
  unfold Char.ofNat
  rw [dif_pos]
  · rfl
  · exact Or.inl h

theorem char_eq_iff_toNat {a b : Char} : a = b ↔ a.toNat = b.toNat := by
  constructor
  · intro h; rw [h]
  · intro h
    apply Char.ext
    exact UInt32.toNat.inj h

theorem toNat_lowerChar (c : Char) :
    (lowerChar c).toNat =
      if 65 ≤ c.toNat ∧ c.toNat ≤ 90 then c.toNat + 32 else c.toNat := by
  unfold lowerChar isAsciiUpperB
  split
  · rename_i h
    simp only [Bool.and_eq_true, decide_eq_true_eq] at h
    rw [char_toNat_ofNat_valid]
    · simp [h]
    · omega
  · rename_i h
    simp only [Bool.and_eq_true, decide_eq_true_eq, not_and, not_le] at h
    split
    · rename_i h2; omega
    · rfl

theorem isWordChar_toNat {c : Char} : isWordChar c = true ↔
    (65 ≤ c.toNat ∧ c.toNat ≤ 90) ∨ (97 ≤ c.toNat ∧ c.toNat ≤ 122) ∨
    (48 ≤ c.toNat ∧ c.toNat ≤ 57) ∨ c.toNat = 95 := by
  have h95 : ('_').toNat = 95 := by decide
  simp only [isWordChar, isAsciiUpperB, isAsciiLowerB, isDigitB, Bool.or_eq_true,
    Bool.and_eq_true, decide_eq_true_eq, char_eq_iff_toNat, h95]
  omega

theorem isPySpace_toNat {c : Char} : isPySpace c = true ↔
    c.toNat = 32 ∨ c.toNat = 9 ∨ c.toNat = 10 ∨ c.toNat = 13 ∨
    c.toNat = 11 ∨ c.toNat = 12 := by
  simp only [isPySpace, Bool.or_eq_true, decide_eq_true_eq, char_eq_iff_toNat]
  have h1 : (' ').toNat = 32 := by decide
  have h2 : ('\t').toNat = 9 := by decide
  have h3 : ('\n').toNat = 10 := by decide
  have h4 : ('\r').toNat = 13 := by decide
  have h5 : ('\x0b').toNat = 11 := by decide
  have h6 : ('\x0c').toNat = 12 := by decide
  rw [h1, h2, h3, h4, h5, h6]
  omega

theorem isDigitB_toNat {c : Char} : isDigitB c = true ↔
    48 ≤ c.toNat ∧ c.toNat ≤ 57 := by
  simp only [isDigitB, Bool.and_eq_true, decide_eq_true_eq]

theorem lowerChar_lowerChar (c : Char) : lowerChar (lowerChar c) = lowerChar c := by
  rw [char_eq_iff_toNat, toNat_lowerChar, toNat_lowerChar]
  split_ifs <;> omega

theorem isWordChar_lowerChar (c : Char) : isWordChar (lowerChar c) = isWordChar c := by
  cases hw : isWordChar c with
  | true =>
    rw [isWordChar_toNat, toNat_lowerChar]
    rw [isWordChar_toNat] at hw
    split <;> omega
  | false =>
    have hw' : ¬ (isWordChar c = true) := by simp [hw]
    rw [isWordChar_toNat] at hw'
    rw [← Bool.not_eq_true]
    rw [isWordChar_toNat, toNat_lowerChar]
    split <;> omega

theorem isPySpace_lowerChar (c : Char) : isPySpace (lowerChar c) = isPySpace c := by
  cases hw : isPySpace c with
  | true =>
    rw [isPySpace_toNat, toNat_lowerChar]
    rw [isPySpace_toNat] at hw
    split <;> omega
  | false =>
    have hw' : ¬ (isPySpace c = true) := by simp [hw]
    rw [isPySpace_toNat] at hw'
    rw [← Bool.not_eq_true]
    rw [isPySpace_toNat, toNat_lowerChar]
    split <;> omega

theorem isDigitB_lowerChar (c : Char) : isDigitB (lowerChar c) = isDigitB c := by
  cases hw : isDigitB c with
  | true =>
    rw [isDigitB_toNat, toNat_lowerChar]
    rw [isDigitB_toNat] at hw
    split <;> omega
  | false =>
    have hw' : ¬ (isDigitB c = true) := by simp [hw]
    rw [isDigitB_toNat] at hw'
    rw [← Bool.not_eq_true]
    rw [isDigitB_toNat, toNat_lowerChar]
    split <;> omega

theorem lowerChar_of_isDigitB {c : Char} (h : isDigitB c = true) : lowerChar c = c := by
  rw [isDigitB_toNat] at h
  rw [char_eq_iff_toNat, toNat_lowerChar]
  split <;> omega

theorem lowerChar_of_isPySpace {c : Char} (h : isPySpace c = true) : lowerChar c = c := by
  rw [isPySpace_toNat] at h
  rw [char_eq_iff_toNat, toNat_lowerChar]
  split <;> omega

theorem not_isWordChar_of_isPySpace {c : Char} (h : isPySpace c = true) :
    isWordChar c = false := by
  rw [isPySpace_toNat] at h
  rw [← Bool.not_eq_true, isWordChar_toNat]
  omega

theorem isWordChar_of_isDigitB {c : Char} (h : isDigitB c = true) :
    isWordChar c = true := by
  rw [isDigitB_toNat] at h
  rw [isWordChar_toNat]
  omega

/-! ## Decimal printing lemmas -/

theorem digitChar_toNat {k : Nat} (h : k < 10) : (digitChar k).toNat = 48 + k := by
  interval_cases k <;> decide

theorem isDigitB_digitChar {k : Nat} (h : k < 10) : isDigitB (digitChar k) = true := by
  interval_cases k <;> decide

theorem digitsVal_append_digit (xs : List Char) (c : Char) :
    digitsVal (xs ++ [c]) = digitsVal xs * 10 + (c.toNat - 48) := by
  unfold digitsVal
  rw [List.foldl_append]
  rfl

theorem natDigitsF_fuel : ∀ n f1 f2, n ≤ f1 → n ≤ f2 →
    natDigitsF f1 n = natDigitsF f2 n := by
  intro n
  induction n using Nat.strong_induction_on with
  | _ n ih =>
    intro f1 f2 h1 h2
    match f1, f2 with
    | 0, 0 => rfl
    | 0, f2 + 1 =>
      have hn : n = 0 := by omega
      subst hn
      simp [natDigitsF]
    | f1 + 1, 0 =>
      have hn : n = 0 := by omega
      subst hn
      simp [natDigitsF]
    | f1 + 1, f2 + 1 =>
      simp only [natDigitsF]
      split
      · rfl
      · rename_i hn
        rw [ih (n / 10) (by omega) f1 f2 (by omega) (by omega)]

theorem digitsVal_natDigitsF : ∀ n f, n ≤ f → digitsVal (natDigitsF f n) = n := by
  intro n
  induction n using Nat.strong_induction_on with
  | _ n ih =>
    intro f hf
    match f with
    | 0 =>
      have hn : n = 0 := by omega
      subst hn
      decide
    | f + 1 =>
      simp only [natDigitsF]
      split
      · rename_i hn
        simp only [digitsVal, List.foldl]
        rw [digitChar_toNat hn]
        omega
      · rename_i hn
        rw [digitsVal_append_digit, ih (n / 10) (by omega) f (by omega),
          digitChar_toNat (by omega)]
        omega

theorem digitsVal_natDigits (n : Nat) : digitsVal (natDigits n) = n :=
  digitsVal_natDigitsF n n le_rfl

theorem natDigitsF_ne_nil (f n : Nat) : natDigitsF f n ≠ [] := by
  match f with
  | 0 => simp [natDigitsF]
  | f + 1 =>
    simp only [natDigitsF]
    split
    · simp
    · simp

theorem natDigits_ne_nil (n : Nat) : natDigits n ≠ [] := natDigitsF_ne_nil n n

theorem natDigitsF_all_digits : ∀ n f, n ≤ f → ∀ c ∈ natDigitsF f n, isDigitB c = true := by
  intro n
  induction n using Nat.strong_induction_on with
  | _ n ih =>
    intro f hf c hc
    match f with
    | 0 =>
      have hn : n = 0 := by omega
      subst hn
      simp only [natDigitsF, List.mem_singleton] at hc
      subst hc
      decide
    | f + 1 =>
      simp only [natDigitsF] at hc
      split at hc
      · rename_i hn
        simp only [List.mem_singleton] at hc
        subst hc
        exact isDigitB_digitChar hn
      · rename_i hn
        rw [List.mem_append, List.mem_singleton] at hc
        cases hc with
        | inl h => exact ih (n / 10) (by omega) f (by omega) c h
        | inr h =>
          subst h
          exact isDigitB_digitChar (by omega)

theorem natDigits_all_digits (n : Nat) : ∀ c ∈ natDigits n, isDigitB c = true :=
  natDigitsF_all_digits n n le_rfl

/-! ## `str.strip` lemmas -/

theorem dropWhile_all {p : Char → Bool} {s : List Char}
    (h : ∀ c ∈ s, p c = true) : s.dropWhile p = [] := by
  induction s with
  | nil => rfl
  | cons c cs ih =>
    rw [List.dropWhile_cons_of_pos (h c (by simp))]
    exact ih (fun x hx => h x (by simp [hx]))

theorem dropWhile_head_not {p : Char → Bool} {s c : List Char → List Char} : True := trivial

theorem dropWhile_head?_false {p : Char → Bool} {s : List Char} {c : Char}
    (h : (s.dropWhile p).head? = some c) : p c = false := by
  induction s with
  | nil => simp [List.dropWhile] at h
  | cons x xs ih =>
    by_cases hp : p x = true
    · rw [List.dropWhile_cons_of_pos hp] at h
      exact ih h
    · rw [List.dropWhile_cons_of_neg hp] at h
      simp only [List.head?_cons, Option.some.injEq] at h
      subst h
      simpa using hp

theorem dropWhile_eq_self_of_head {p : Char → Bool} {s : List Char}
    (h : ∀ c, s.head? = some c → p c = false) : s.dropWhile p = s := by
  cases s with
  | nil => rfl
  | cons x xs => exact List.dropWhile_cons_of_neg (by simp [h x rfl])

theorem takeWhile_all_true {p : Char → Bool} {s : List Char} :
    ∀ c ∈ s.takeWhile p, p c = true := by
  induction s with
  | nil => simp
  | cons x xs ih =>
    by_cases hp : p x = true
    · rw [List.takeWhile_cons_of_pos hp]
      intro c hc
      rcases List.mem_cons.mp hc with h | h
      · subst h; exact hp
      · exact ih c h
    · rw [List.takeWhile_cons_of_neg hp]
      simp

theorem dropWhile_getLast? {p : Char → Bool} {s : List Char}
    (h : s.dropWhile p ≠ []) : (s.dropWhile p).getLast? = s.getLast? := by
  obtain ⟨u, hu⟩ := (@List.dropWhile_suffix _ s p)
  conv_rhs => rw [← hu]
  rw [List.getLast?_append]
  cases hd : (s.dropWhile p).getLast? with
  | none => exact absurd (List.getLast?_eq_none_iff.mp hd) h
  | some c => rfl

theorem pyStrip_decomp (s : List Char) :
    ∃ u v, s = u ++ pyStrip s ++ v ∧ (∀ c ∈ u, isPySpace c = true) ∧
      (∀ c ∈ v, isPySpace c = true) := by
  unfold pyStrip
  set a := s.dropWhile isPySpace with ha
  set b := a.reverse.dropWhile isPySpace with hb
  refine ⟨s.takeWhile isPySpace, (a.reverse.takeWhile isPySpace).reverse, ?_, ?_, ?_⟩
  · conv_lhs => rw [← List.takeWhile_append_dropWhile isPySpace s]
    rw [← ha]
    have h2 : a = b.reverse ++ (a.reverse.takeWhile isPySpace).reverse := by
      have h3 : a.reverse.takeWhile isPySpace ++ b = a.reverse := by
        rw [hb]; exact List.takeWhile_append_dropWhile isPySpace a.reverse
      calc a = a.reverse.reverse := by rw [List.reverse_reverse]
        _ = (a.reverse.takeWhile isPySpace ++ b).reverse := by rw [h3]
        _ = b.reverse ++ (a.reverse.takeWhile isPySpace).reverse := by
            rw [List.reverse_append]
    rw [List.append_assoc, ← h2]
  · exact takeWhile_all_true
  · intro c hc
    exact takeWhile_all_true c (List.mem_reverse.mp hc)

theorem pyStrip_head? {s : List Char} {c : Char}
    (h : (pyStrip s).head? = some c) : isPySpace c = false := by
  unfold pyStrip at h
  rw [List.head?_reverse] at h
  have hne : (s.dropWhile isPySpace).reverse.dropWhile isPySpace ≠ [] := by
    intro hx
    rw [hx] at h
    simp at h
  rw [dropWhile_getLast? hne, List.getLast?_reverse] at h
  exact dropWhile_head?_false h

theorem pyStrip_getLast? {s : List Char} {c : Char}
    (h : (pyStrip s).getLast? = some c) : isPySpace c = false := by
  unfold pyStrip at h
  rw [List.getLast?_reverse] at h
  exact dropWhile_head?_false h

theorem pyStrip_eq_self {s : List Char}
    (h1 : ∀ c, s.head? = some c → isPySpace c = false)
    (h2 : ∀ c, s.getLast? = some c → isPySpace c = false) : pyStrip s = s := by
  unfold pyStrip
  rw [dropWhile_eq_self_of_head h1, dropWhile_eq_self_of_head
    (fun c hc => h2 c (by rwa [List.head?_reverse] at hc)), List.reverse_reverse]

theorem pyStrip_idem (s : List Char) : pyStrip (pyStrip s) = pyStrip s :=
  pyStrip_eq_self (fun _ h => pyStrip_head? h) (fun _ h => pyStrip_getLast? h)

theorem pyStrip_eq_nil_iff {s : List Char} :
    pyStrip s = [] ↔ ∀ c ∈ s, isPySpace c = true := by
  constructor
  · intro h c hc
    obtain ⟨u, v, hs, hu, hv⟩ := pyStrip_decomp s
    rw [h] at hs
    rw [hs] at hc
    simp only [List.append_nil, List.mem_append] at hc
    rcases hc with hc | hc
    · exact hu c hc
    · exact hv c hc
  · intro h
    unfold pyStrip
    rw [dropWhile_all h]
    rfl

/-! ## Inversion and construction of the `\blimit\s+\d+\b` match -/

theorem isDigitB_not_isPySpace {c : Char} (h : isDigitB c = true) :
    isPySpace c = false := by
  rw [isDigitB_toNat] at h
  rw [← Bool.not_eq_true, isPySpace_toNat]
  omega

theorem not_isDigitB_of_not_isWordChar {c : Char} (h : isWordChar c = false) :
    isDigitB c = false := by
  rw [← Bool.not_eq_true, isDigitB_toNat]
  rw [← Bool.not_eq_true, isWordChar_toNat] at h
  omega

theorem takeWhile_append_all {p : Char → Bool} {xs : List Char} (ys : List Char)
    (h : ∀ c ∈ xs, p c = true) : (xs ++ ys).takeWhile p = xs ++ ys.takeWhile p := by
  induction xs with
  | nil => simp
  | cons x xt ih =>
    rw [List.cons_append, List.takeWhile_cons_of_pos (h x (by simp)),
      ih (fun c hc => h c (by simp [hc])), List.cons_append]

theorem dropWhile_append_all {p : Char → Bool} {xs : List Char} (ys : List Char)
    (h : ∀ c ∈ xs, p c = true) : (xs ++ ys).dropWhile p = ys.dropWhile p := by
  induction xs with
  | nil => simp
  | cons x xt ih =>
    rw [List.cons_append, List.dropWhile_cons_of_pos (h x (by simp))]
    exact ih (fun c hc => h c (by simp [hc]))

theorem takeWhile_eq_nil_of_head {p : Char → Bool} {s : List Char}
    (h : ∀ c, s.head? = some c → p c = false) : s.takeWhile p = [] := by
  cases s with
  | nil => rfl
  | cons x xs => exact List.takeWhile_cons_of_neg (by simp [h x rfl])

theorem stripPrefixLower_inv {kw s r : List Char}
    (h : stripPrefixLower kw s = some r) :
    ∃ pre, s = pre ++ r ∧ lowerStr pre = kw := by
  induction kw generalizing s with
  | nil =>
    simp only [stripPrefixLower, Option.some.injEq] at h
    exact ⟨[], by simp [h], rfl⟩
  | cons k ks ih =>
    cases s with
    | nil => simp [stripPrefixLower] at h
    | cons c cs =>
      simp only [stripPrefixLower] at h
      split at h
      · rename_i hc
        obtain ⟨pre, hpre, hlow⟩ := ih h
        refine ⟨c :: pre, by simp [hpre], ?_⟩
        simp only [lowerStr, List.map_cons] at hlow ⊢
        rw [hc, hlow]
      · exact absurd h (by simp)

theorem stripPrefixLower_build {kw pre : List Char} (r : List Char)
    (h : lowerStr pre = kw) : stripPrefixLower kw (pre ++ r) = some r := by
  induction pre generalizing kw with
  | nil =>
    simp only [lowerStr, List.map_nil] at h
    subst h
    simp [stripPrefixLower]
  | cons c ct ih =>
    simp only [lowerStr, List.map_cons] at h
    subst h
    simp only [List.cons_append, stripPrefixLower, if_pos rfl]
    exact ih rfl

theorem matchLimitNum_inv {s : List Char} {n : Nat} {rest : List Char}
    (h : matchLimitNum s = some (n, rest)) :
    ∃ l5 sp ds, s = l5 ++ sp ++ ds ++ rest ∧
      lowerStr l5 = limitKw ∧
      sp ≠ [] ∧ (∀ c ∈ sp, isPySpace c = true) ∧
      ds ≠ [] ∧ (∀ c ∈ ds, isDigitB c = true) ∧
      n = digitsVal ds ∧ boundaryOk rest = true := by
  unfold matchLimitNum at h
  cases hs : stripPrefixLower limitKw s with
  | none => rw [hs] at h; exact absurd h (by simp)
  | some r1 =>
    rw [hs] at h
    simp only at h
    split at h
    · exact absurd h (by simp)
    · rename_i hsp
      split at h
      · exact absurd h (by simp)
      · rename_i hds
        split at h
        · rename_i hb
          simp only [Option.some.injEq, Prod.mk.injEq] at h
          obtain ⟨hn, hr⟩ := h
          obtain ⟨l5, hl5, hlow⟩ := stripPrefixLower_inv hs
          refine ⟨l5, r1.takeWhile isPySpace,
            (r1.dropWhile isPySpace).takeWhile isDigitB, ?_, hlow, ?_, ?_, ?_, ?_, ?_, ?_⟩
          · rw [hl5, ← hr]
            simp only [List.append_assoc]
            rw [List.takeWhile_append_dropWhile isDigitB (r1.dropWhile isPySpace)]
            rw [List.takeWhile_append_dropWhile isPySpace r1]
          · simpa using hsp
          · exact takeWhile_all_true
          · simpa using hds
          · exact takeWhile_all_true
          · omega
          · rw [hr] at hb; exact hb
        · exact absurd h (by simp)

theorem matchLimitNum_build {l5 sp ds rest : List Char}
    (h5 : lowerStr l5 = limitKw)
    (hsp : sp ≠ []) (hspAll : ∀ c ∈ sp, isPySpace c = true)
    (hds : ds ≠ []) (hdsAll : ∀ c ∈ ds, isDigitB c = true)
    (hb : boundaryOk rest = true) :
    matchLimitNum (l5 ++ sp ++ ds ++ rest) = some (digitsVal ds, rest) := by
  unfold matchLimitNum
  have hstrip : stripPrefixLower limitKw (l5 ++ (sp ++ (ds ++ rest))) =
      some (sp ++ (ds ++ rest)) :=
    stripPrefixLower_build _ h5
  simp only [List.append_assoc]
  rw [hstrip]
  have hdhead : ∀ c, (ds ++ rest).head? = some c → isPySpace c = false := by
    intro c hc
    cases ds with
    | nil => exact absurd rfl hds
    | cons d dt =>
      simp only [List.cons_append, List.head?_cons, Option.some.injEq] at hc
      subst hc
      exact isDigitB_not_isPySpace (hdsAll _ (by simp))
  have htw : (sp ++ (ds ++ rest)).takeWhile isPySpace = sp := by
    rw [takeWhile_append_all _ hspAll, takeWhile_eq_nil_of_head hdhead,
      List.append_nil]
  have hdw : (sp ++ (ds ++ rest)).dropWhile isPySpace = ds ++ rest := by
    rw [dropWhile_append_all _ hspAll, dropWhile_eq_self_of_head hdhead]
  have hrhead : ∀ c, rest.head? = some c → isDigitB c = false := by
    intro c hc
    cases rest with
    | nil => simp at hc
    | cons r rt =>
      simp only [List.head?_cons, Option.some.injEq] at hc
      subst hc
      simp only [boundaryOk, Bool.not_eq_true'] at hb
      exact not_isDigitB_of_not_isWordChar hb
  have htw2 : (ds ++ rest).takeWhile isDigitB = ds := by
    rw [takeWhile_append_all _ hdsAll, takeWhile_eq_nil_of_head hrhead, List.append_nil]
  have hdw2 : (ds ++ rest).dropWhile isDigitB = rest := by
    rw [dropWhile_append_all _ hdsAll, dropWhile_eq_self_of_head hrhead]
  simp only [hdw, htw, htw2, hdw2]
  rw [if_neg (by simpa using hsp), if_neg (by simpa using hds), if_pos hb]

/-! ## Fuel irrelevance and unfolding equations for the `re.sub` scan -/

theorem subLimitF_fuel (d : List Char) :
    ∀ f1, ∀ s, ∀ f2 pw, s.length ≤ f1 → s.length ≤ f2 →
      subLimitF d f1 pw s = subLimitF d f2 pw s := by
  intro f1
  induction f1 with
  | zero =>
    intro s f2 pw h1 _
    have : s = [] := by
      cases s with
      | nil => rfl
      | cons c cs => simp at h1
    subst this
    cases f2 <;> rfl
  | succ f1 ih =>
    intro s f2 pw h1 h2
    cases s with
    | nil => cases f2 <;> rfl
    | cons c cs =>
      cases f2 with
      | zero => simp at h2
      | succ f2 =>
        simp only [subLimitF]
        by_cases hpw : pw = true
        · subst hpw
          simp only [eq_self_iff_true, if_true]
          rw [ih cs f2 (isWordChar c) (by simp at h1; omega) (by simp at h2; omega)]
        · have hpw' : pw = false := by simpa using hpw
          subst hpw'
          simp only [Bool.false_eq_true, if_false]
          cases hm : matchLimitNum (c :: cs) with
          | none =>
            simp only [hm]
            rw [ih cs f2 (isWordChar c) (by simp at h1; omega) (by simp at h2; omega)]
          | some nr =>
            obtain ⟨n, rest⟩ := nr
            simp only [hm]
            have hlt := matchLimitNum_rest_lt hm
            rw [ih rest f2 true (by simp at h1 hlt; omega) (by simp at h2 hlt; omega)]

theorem subLimit_nil (d : List Char) (pw : Bool) : subLimit d pw [] = [] := rfl

theorem subLimit_cons_true (d : List Char) (c : Char) (cs : List Char) :
    subLimit d true (c :: cs) = c :: subLimit d (isWordChar c) cs := by
  unfold subLimit
  simp only [List.length_cons, subLimitF, eq_self_iff_true, if_true]

theorem subLimit_cons_none {c : Char} {cs : List Char} (d : List Char)
    (hm : matchLimitNum (c :: cs) = none) :
    subLimit d false (c :: cs) = c :: subLimit d (isWordChar c) cs := by
  unfold subLimit
  simp only [List.length_cons, subLimitF, Bool.false_eq_true, if_false, hm]

theorem subLimit_cons_match {c : Char} {cs : List Char} {n : Nat} {rest : List Char}
    (d : List Char) (hm : matchLimitNum (c :: cs) = some (n, rest)) :
    subLimit d false (c :: cs) = ("LIMIT ").toList ++ d ++ subLimit d true rest := by
  unfold subLimit
  simp only [List.length_cons, subLimitF, Bool.false_eq_true, if_false, hm]
  have hlt := matchLimitNum_rest_lt hm
  rw [subLimitF_fuel d cs.length rest rest.length true (by simp at hlt; omega) le_rfl]

theorem limitNumsF_fuel :
    ∀ f1, ∀ s, ∀ f2 pw, s.length ≤ f1 → s.length ≤ f2 →
      limitNumsF f1 pw s = limitNumsF f2 pw s := by
  intro f1
  induction f1 with
  | zero =>
    intro s f2 pw h1 _
    have : s = [] := by
      cases s with
      | nil => rfl
      | cons c cs => simp at h1
    subst this
    cases f2 <;> rfl
  | succ f1 ih =>
    intro s f2 pw h1 h2
    cases s with
    | nil => cases f2 <;> rfl
    | cons c cs =>
      cases f2 with
      | zero => simp at h2
      | succ f2 =>
        simp only [limitNumsF]
        by_cases hpw : pw = true
        · subst hpw
          simp only [eq_self_iff_true, if_true]
          rw [ih cs f2 (isWordChar c) (by simp at h1; omega) (by simp at h2; omega)]
        · have hpw' : pw = false := by simpa using hpw
          subst hpw'
          simp only [Bool.false_eq_true, if_false]
          cases hm : matchLimitNum (c :: cs) with
          | none =>
            simp only [hm]
            rw [ih cs f2 (isWordChar c) (by simp at h1; omega) (by simp at h2; omega)]
          | some nr =>
            obtain ⟨n, rest⟩ := nr
            simp only [hm]
            have hlt := matchLimitNum_rest_lt hm
            rw [ih rest f2 true (by simp at h1 hlt; omega) (by simp at h2 hlt; omega)]

theorem limitNums_nil (pw : Bool) : limitNums pw [] = [] := rfl

theorem limitNums_cons_true (c : Char) (cs : List Char) :
    limitNums true (c :: cs) = limitNums (isWordChar c) cs := by
  unfold limitNums
  simp only [List.length_cons, limitNumsF, eq_self_iff_true, if_true]

theorem limitNums_cons_none {c : Char} {cs : List Char}
    (hm : matchLimitNum (c :: cs) = none) :
    limitNums false (c :: cs) = limitNums (isWordChar c) cs := by
  unfold limitNums
  simp only [List.length_cons, limitNumsF, Bool.false_eq_true, if_false, hm]

theorem limitNums_cons_match {c : Char} {cs : List Char} {n : Nat} {rest : List Char}
    (hm : matchLimitNum (c :: cs) = some (n, rest)) :
    limitNums false (c :: cs) = n :: limitNums true rest := by
  unfold limitNums
  simp only [List.length_cons, limitNumsF, Bool.false_eq_true, if_false, hm]
  have hlt := matchLimitNum_rest_lt hm
  rw [limitNumsF_fuel cs.length rest rest.length true (by simp at hlt; omega) le_rfl]

/-! ## Scanner unfolding and small transfer helpers -/

theorem kwHeadMatch_cons {k c : Char} {ks cs : List Char} :
    kwHeadMatch (k :: ks) (c :: cs) =
      if lowerChar c = k then kwHeadMatch ks cs else false := by
  by_cases hc : lowerChar c = k
  · simp only [kwHeadMatch, stripPrefixLower, if_pos hc]
  · simp only [kwHeadMatch, stripPrefixLower, if_neg hc]

theorem searchWord_cons (kw : List Char) (pw : Bool) (c : Char) (cs : List Char) :
    searchWord kw pw (c :: cs) =
      (wordMatchAt kw pw (c :: cs) || searchWord kw (isWordChar c) cs) := rfl

theorem wordMatchAt_true (kw s : List Char) : wordMatchAt kw true s = false := by
  simp [wordMatchAt]

theorem containsSub_cons (pat : List Char) (c : Char) (cs : List Char) :
    containsSub pat (c :: cs) = (isPrefixB pat (c :: cs) || containsSub pat cs) := rfl

theorem isPrefixB_eq_false_of_mismatchEarly {pat t : List Char}
    (h : mismatchEarly pat t = true) (k : List Char) :
    isPrefixB pat (t ++ k) = false := by
  induction pat generalizing t with
  | nil => simp [mismatchEarly] at h
  | cons p ps ih =>
    cases t with
    | nil => simp [mismatchEarly] at h
    | cons c cs =>
      simp only [mismatchEarly, Bool.or_eq_true, Bool.not_eq_true',
        beq_eq_false_iff_ne] at h
      simp only [List.cons_append, isPrefixB]
      rcases h with h | h
      · simp [h]
      · simp [ih h]

theorem isWordChar_of_lower_letter {c k : Char} (h : lowerChar c = k)
    (hk : isAsciiLowerB k = true) : isWordChar c = true := by
  rw [char_eq_iff_toNat, toNat_lowerChar] at h
  simp only [isAsciiLowerB, Bool.and_eq_true, decide_eq_true_eq] at hk
  rw [isWordChar_toNat]
  split at h <;> omega

/-! ## Copying and inversion lemmas for the `re.sub` scan -/

theorem subLimit_true_cons_inv {d s : List Char} {y : Char} {ys : List Char}
    (h : subLimit d true s = y :: ys) :
    ∃ s2, s = y :: s2 ∧ ys = subLimit d (isWordChar y) s2 := by
  cases s with
  | nil => simp [subLimit_nil] at h
  | cons x xs =>
    rw [subLimit_cons_true] at h
    obtain ⟨h1, h2⟩ := List.cons.inj h
    subst h1
    exact ⟨xs, rfl, h2.symm⟩

theorem subLimit_false_cons_inv {d s : List Char} {y : Char} {ys : List Char}
    (h : subLimit d false s = y :: ys) (hy : y ≠ 'L') :
    ∃ s2, s = y :: s2 ∧ ys = subLimit d (isWordChar y) s2 ∧
      matchLimitNum (y :: s2) = none := by
  cases s with
  | nil => simp [subLimit_nil] at h
  | cons x xs =>
    cases hm : matchLimitNum (x :: xs) with
    | none =>
      rw [subLimit_cons_none d hm] at h
      obtain ⟨h1, h2⟩ := List.cons.inj h
      subst h1
      exact ⟨xs, rfl, h2.symm, hm⟩
    | some nr =>
      obtain ⟨n, rest⟩ := nr
      rw [subLimit_cons_match d hm] at h
      have he : ("LIMIT ").toList ++ d ++ subLimit d true rest =
          'L' :: (("IMIT ").toList ++ (d ++ subLimit d true rest)) := rfl
      rw [he] at h
      exact absurd (List.cons.inj h).1.symm hy

theorem pwAfter_nil (pw : Bool) : pwAfter pw [] = pw := rfl

theorem pwAfter_cons (pw : Bool) (y : Char) (xs : List Char) :
    pwAfter pw (y :: xs) = pwAfter (isWordChar y) xs := by
  cases xs with
  | nil => simp [pwAfter]
  | cons a as =>
    simp only [pwAfter, List.getLast?_cons_cons]
    cases hl : (a :: as).getLast? with
    | none =>
      rw [List.getLast?_eq_none_iff] at hl
      simp at hl
    | some z => simp [hl]

theorem subLimit_run_inv (d : List Char) :
    ∀ (run tl s : List Char) (pw : Bool),
      subLimit d pw s = run ++ tl → (∀ y ∈ run, y ≠ 'L') →
      ∃ s2, s = run ++ s2 ∧ tl = subLimit d (pwAfter pw run) s2 := by
  intro run
  induction run with
  | nil =>
    intro tl s pw h _
    exact ⟨s, rfl, h.symm⟩
  | cons y run' ih =>
    intro tl s pw h hy
    cases pw with
    | true =>
      obtain ⟨s2, hs2, hrest⟩ := subLimit_true_cons_inv (by simpa using h)
      obtain ⟨s3, hs3, htl⟩ := ih tl s2 (isWordChar y) hrest.symm
        (fun z hz => hy z (by simp [hz]))
      refine ⟨s3, by simp [hs2, hs3], ?_⟩
      rw [pwAfter_cons]
      exact htl
    | false =>
      obtain ⟨s2, hs2, hrest, -⟩ := subLimit_false_cons_inv (by simpa using h)
        (hy y (by simp))
      obtain ⟨s3, hs3, htl⟩ := ih tl s2 (isWordChar y) hrest.symm
        (fun z hz => hy z (by simp [hz]))
      refine ⟨s3, by simp [hs2, hs3], ?_⟩
      rw [pwAfter_cons]
      exact htl

theorem subLimit_boundary {d r : List Char}
    (h : boundaryOk r = true) : boundaryOk (subLimit d true r) = true := by
  cases r with
  | nil => simpa [subLimit_nil] using h
  | cons c cs =>
    rw [subLimit_cons_true]
    simpa [boundaryOk] using h

theorem lowerStr_eq_limit_inv {l5 : List Char} (h : lowerStr l5 = limitKw) :
    ∃ a b c e f, l5 = [a, b, c, e, f] ∧ lowerChar a = 'l' ∧ lowerChar b = 'i' ∧
      lowerChar c = 'm' ∧ lowerChar e = 'i' ∧ lowerChar f = 't' := by
  have hk : limitKw = ['l', 'i', 'm', 'i', 't'] := by decide
  rw [hk] at h
  rcases l5 with _ | ⟨a, _ | ⟨b, _ | ⟨c, _ | ⟨e, _ | ⟨f, _ | ⟨g, rest⟩⟩⟩⟩⟩⟩ <;>
    simp only [lowerStr, List.map_nil, List.map_cons, List.cons.injEq] at h
  · exact absurd h (by simp)
  · exact absurd h (by simp)
  · exact absurd h (by simp)
  · exact absurd h (by simp)
  · exact absurd h (by simp)
  · exact ⟨a, b, c, e, f, rfl, h.1, h.2.1, h.2.2.1, h.2.2.2.1, h.2.2.2.2.1⟩
  · exact absurd h (by simp)

theorem ne_L_of_lower_ne {y k : Char} (h : lowerChar y = k) (hk : k ≠ 'l') : y ≠ 'L' := by
  intro heq
  subst heq
  rw [show lowerChar 'L' = 'l' from by decide] at h
  exact hk h.symm

theorem ne_L_of_isPySpace {y : Char} (h : isPySpace y = true) : y ≠ 'L' := by
  intro heq
  subst heq
  exact absurd h (by decide)

theorem ne_L_of_isDigitB {y : Char} (h : isDigitB y = true) : y ≠ 'L' := by
  intro heq
  subst heq
  exact absurd h (by decide)

theorem mem_of_getLast?_eq_some {w : Char} {l : List Char}
    (h : l.getLast? = some w) : w ∈ l := by
  rw [List.getLast?_eq_some_iff] at h
  obtain ⟨l', rfl⟩ := h
  simp

theorem pwAfter_true_of_digits_suffix {xs ds : List Char} {pw : Bool}
    (hds : ds ≠ []) (hall : ∀ c ∈ ds, isDigitB c = true) :
    pwAfter pw (xs ++ ds) = true := by
  unfold pwAfter
  rw [List.getLast?_append]
  cases hz : ds.getLast? with
  | none =>
    rw [List.getLast?_eq_none_iff] at hz
    exact absurd hz hds
  | some w =>
    simp only [Option.or_some]
    exact isWordChar_of_isDigitB (hall w (mem_of_getLast?_eq_some hz))

theorem matchLimitNum_subLimit_none {c : Char} {cs : List Char} (d : List Char)
    (hm : matchLimitNum (c :: cs) = none) :
    matchLimitNum (c :: subLimit d (isWordChar c) cs) = none := by
  cases hout : matchLimitNum (c :: subLimit d (isWordChar c) cs) with
  | none => rfl
  | some nr =>
    exfalso
    obtain ⟨n', rest'⟩ := nr
    obtain ⟨l5, sp, ds, heq, hl5, hspne, hsp, hdsne, hds, -, hb⟩ := matchLimitNum_inv hout
    obtain ⟨a, b, c2, e, f, hl5eq, ha, hb2, hc2, he, hf⟩ := lowerStr_eq_limit_inv hl5
    subst hl5eq
    simp only [List.cons_append, List.append_assoc, List.nil_append,
      List.cons.injEq] at heq
    obtain ⟨hca, htail⟩ := heq
    subst hca
    have hwc : isWordChar c = true := isWordChar_of_lower_letter ha (by decide)
    rw [hwc] at htail
    have hrunL : ∀ y ∈ [b, c2, e, f] ++ (sp ++ ds), y ≠ 'L' := by
      intro y hy
      simp only [List.mem_append, List.mem_cons, List.not_mem_nil, or_false] at hy
      rcases hy with ((h1 | h1 | h1 | h1) | h1 | h1)
      · exact ne_L_of_lower_ne (h1 ▸ hb2) (by decide)
      · exact ne_L_of_lower_ne (h1 ▸ hc2) (by decide)
      · exact ne_L_of_lower_ne (h1 ▸ he) (by decide)
      · exact ne_L_of_lower_ne (h1 ▸ hf) (by decide)
      · exact ne_L_of_isPySpace (hsp y h1)
      · exact ne_L_of_isDigitB (hds y h1)
    have htail2 : subLimit d true cs = ([b, c2, e, f] ++ (sp ++ ds)) ++ rest' := by
      rw [htail]
      simp [List.append_assoc]
    obtain ⟨s2, hs2, hrest⟩ := subLimit_run_inv d ([b, c2, e, f] ++ (sp ++ ds))
      rest' cs true htail2 hrunL
    have hpwa : pwAfter true ([b, c2, e, f] ++ (sp ++ ds)) = true := by
      have : [b, c2, e, f] ++ (sp ++ ds) = ([b, c2, e, f] ++ sp) ++ ds := by
        simp [List.append_assoc]
      rw [this]
      exact pwAfter_true_of_digits_suffix hdsne hds
    rw [hpwa] at hrest
    have hbs2 : boundaryOk s2 = true := by
      cases hs2c : s2 with
      | nil => rfl
      | cons z zs =>
        rw [hs2c, subLimit_cons_true] at hrest
        rw [hrest] at hb
        simpa [boundaryOk] using hb
    have hbuild : matchLimitNum ([c, b, c2, e, f] ++ sp ++ ds ++ s2) =
        some (digitsVal ds, s2) := by
      refine matchLimitNum_build ?_ hspne hsp hdsne hds hbs2
      simp only [lowerStr, List.map_cons, List.map_nil]
      rw [ha, hb2, hc2, he, hf]
      decide
    have hcs : c :: cs = [c, b, c2, e, f] ++ sp ++ ds ++ s2 := by
      rw [hs2]
      simp [List.append_assoc]
    rw [hcs, hbuild] at hm
    exact Option.noConfusion hm

theorem limitNums_subLimit_aux (d : List Char) (hd : d ≠ [])
    (hdall : ∀ c ∈ d, isDigitB c = true) :
    ∀ n (s : List Char), s.length ≤ n → ∀ pw,
      limitNums pw (subLimit d pw s) = (limitNums pw s).map (fun _ => digitsVal d) := by
  intro n
  induction n with
  | zero =>
    intro s hs pw
    have hnil : s = [] := by
      cases s with
      | nil => rfl
      | cons c cs => simp at hs
    subst hnil
    simp [subLimit_nil, limitNums_nil]
  | succ n ih =>
    intro s hs pw
    cases s with
    | nil => simp [subLimit_nil, limitNums_nil]
    | cons c cs =>
      cases pw with
      | true =>
        rw [subLimit_cons_true, limitNums_cons_true, limitNums_cons_true]
        exact ih cs (by simp at hs; omega) (isWordChar c)
      | false =>
        cases hm : matchLimitNum (c :: cs) with
        | none =>
          rw [subLimit_cons_none d hm,
            limitNums_cons_none (matchLimitNum_subLimit_none d hm),
            limitNums_cons_none hm]
          exact ih cs (by simp at hs; omega) (isWordChar c)
        | some nr =>
          obtain ⟨m, rest⟩ := nr
          obtain ⟨l5, sp, ds, heq, hl5, hspne, hsp, hdsne, hds, hn, hbrest⟩ :=
            matchLimitNum_inv hm
          rw [subLimit_cons_match d hm]
          have hbout : boundaryOk (subLimit d true rest) = true := subLimit_boundary hbrest
          have hb2 : matchLimitNum (['L', 'I', 'M', 'I', 'T'] ++ [' '] ++ d ++
              subLimit d true rest) = some (digitsVal d, subLimit d true rest) :=
            matchLimitNum_build (by decide) (by simp) (by decide) hd hdall hbout
          have hshape : ("LIMIT ").toList ++ d ++ subLimit d true rest =
              ['L', 'I', 'M', 'I', 'T'] ++ [' '] ++ d ++ subLimit d true rest := by
            simp
          rw [hshape]
          have hb3 : matchLimitNum ('L' :: (['I', 'M', 'I', 'T', ' '] ++
              (d ++ subLimit d true rest))) = some (digitsVal d, subLimit d true rest) := by
            rw [← hb2]
            congr 1
          have hshape2 : ['L', 'I', 'M', 'I', 'T'] ++ [' '] ++ d ++ subLimit d true rest =
              'L' :: (['I', 'M', 'I', 'T', ' '] ++ (d ++ subLimit d true rest)) := by
            simp
          rw [hshape2, limitNums_cons_match hb3, limitNums_cons_match hm]
          simp only [List.map_cons]
          have hrlen := matchLimitNum_rest_lt hm
          rw [ih rest (by simp at hs hrlen; omega) true]

theorem limitNums_subLimit (d : List Char) (hd : d ≠ [])
    (hdall : ∀ c ∈ d, isDigitB c = true) (pw : Bool) (s : List Char) :
    limitNums pw (subLimit d pw s) = (limitNums pw s).map (fun _ => digitsVal d) :=
  limitNums_subLimit_aux d hd hdall s.length s le_rfl pw

/-! ## Substring scanning across the rewritten string -/

/-- Syntactic conditions on a literal pattern guaranteeing that no
occurrence of the pattern can start inside (or cross into) a region of
the form `limit`-keyword ++ whitespace-run ++ digit-run, in lowered text.
They hold for `mart.`, `" from "`, `"\nfrom "` and `"\tfrom "`. -/
def spanScanOk (pat : List Char) : Prop :=
  pat ≠ [] ∧ ('l' ∉ pat) ∧
  mismatchEarly pat ['i', 'm', 'i', 't'] = true ∧
  mismatchEarly pat ['m', 'i', 't'] = true ∧
  mismatchEarly pat ['i', 't'] = true ∧
  mismatchEarly pat ['t'] = true ∧
  (match pat with
   | [] => False
   | [p0] => isPySpace p0 = false ∧ isDigitB p0 = false
   | p0 :: p1 :: _ => isDigitB p0 = false ∧
       (isPySpace p0 = false ∨ (isPySpace p1 = false ∧ isDigitB p1 = false)))

theorem isPrefixB_false_head {p : Char} {pt t : List Char} {c : Char}
    (h : p ≠ c) : isPrefixB (p :: pt) (c :: t) = false := by
  simp [isPrefixB, h]

theorem isPrefixB_space_window {pat : List Char} (hP : spanScanOk pat)
    {x : Char} (hx : isPySpace x = true) {w : List Char}
    (hw : ∀ c, w.head? = some c → (isPySpace c = true ∨ isDigitB c = true)) :
    isPrefixB pat (x :: w) = false := by
  obtain ⟨hne, -, -, -, -, -, hm⟩ := hP
  cases pat with
  | nil => exact absurd rfl hne
  | cons p0 pt =>
    cases pt with
    | nil =>
      obtain ⟨hp0, -⟩ := hm
      refine isPrefixB_false_head ?_
      intro heq
      subst heq
      rw [hx] at hp0
      exact Bool.noConfusion hp0
    | cons p1 pt2 =>
      obtain ⟨-, hcase⟩ := hm
      rcases hcase with hp0 | ⟨hp1s, hp1d⟩
      · refine isPrefixB_false_head ?_
        intro heq
        subst heq
        rw [hx] at hp0
        exact Bool.noConfusion hp0
      · by_cases hpx : p0 = x
        · subst hpx
          cases w with
          | nil => simp [isPrefixB]
          | cons y ys =>
            rcases hw y rfl with hy | hy
            · have : p1 ≠ y := by
                intro heq; subst heq; rw [hy] at hp1s; exact Bool.noConfusion hp1s
              simp [isPrefixB, this]
            · have : p1 ≠ y := by
                intro heq; subst heq; rw [hy] at hp1d; exact Bool.noConfusion hp1d
              simp [isPrefixB, this]
        · exact isPrefixB_false_head hpx

theorem isPrefixB_digit_window {pat : List Char} (hP : spanScanOk pat)
    {x : Char} (hx : isDigitB x = true) (w : List Char) :
    isPrefixB pat (x :: w) = false := by
  obtain ⟨hne, -, -, -, -, -, hm⟩ := hP
  cases pat with
  | nil => exact absurd rfl hne
  | cons p0 pt =>
    have hp0 : isDigitB p0 = false := by
      cases pt with
      | nil => exact hm.2
      | cons p1 pt2 => exact hm.1
    refine isPrefixB_false_head ?_
    intro heq
    subst heq
    rw [hx] at hp0
    exact Bool.noConfusion hp0

theorem containsSub_digit_run {pat : List Char} (hP : spanScanOk pat) :
    ∀ (ds k : List Char), (∀ c ∈ ds, isDigitB c = true) →
      containsSub pat (ds ++ k) = containsSub pat k := by
  intro ds
  induction ds with
  | nil => intro k _; rfl
  | cons x ds' ih =>
    intro k hall
    rw [List.cons_append, containsSub_cons,
      isPrefixB_digit_window hP (hall x (by simp)) _, Bool.false_or]
    exact ih k (fun c hc => hall c (by simp [hc]))

theorem containsSub_space_run {pat : List Char} (hP : spanScanOk pat) :
    ∀ (sp ds k : List Char), (∀ c ∈ sp, isPySpace c = true) →
      ds ≠ [] → (∀ c ∈ ds, isDigitB c = true) →
      containsSub pat (sp ++ (ds ++ k)) = containsSub pat k := by
  intro sp
  induction sp with
  | nil =>
    intro ds k _ _ hall
    exact containsSub_digit_run hP ds k hall
  | cons x sp' ih =>
    intro ds k hsp hds hall
    rw [List.cons_append, containsSub_cons]
    have hwin : isPrefixB pat (x :: (sp' ++ (ds ++ k))) = false := by
      refine isPrefixB_space_window hP (hsp x (by simp)) ?_
      intro c hc
      cases sp' with
      | nil =>
        cases ds with
        | nil => exact absurd rfl hds
        | cons z zs =>
          simp only [List.nil_append, List.cons_append, List.head?_cons,
            Option.some.injEq] at hc
          subst hc
          exact Or.inr (hall _ (by simp))
      | cons y ys =>
        simp only [List.cons_append, List.head?_cons, Option.some.injEq] at hc
        subst hc
        exact Or.inl (hsp _ (by simp))
    rw [hwin, Bool.false_or]
    exact ih ds k (fun c hc => hsp c (by simp [hc])) hds hall

theorem containsSub_span {pat : List Char} (hP : spanScanOk pat) :
    ∀ (sp ds k : List Char), (∀ c ∈ sp, isPySpace c = true) →
      ds ≠ [] → (∀ c ∈ ds, isDigitB c = true) →
      containsSub pat ('l' :: 'i' :: 'm' :: 'i' :: 't' :: (sp ++ (ds ++ k))) =
        containsSub pat k := by
  intro sp ds k hsp hds hall
  obtain ⟨hne, hnol, hm1, hm2, hm3, hm4, -⟩ := id hP
  have w0 : isPrefixB pat ('l' :: 'i' :: 'm' :: 'i' :: 't' :: (sp ++ (ds ++ k))) = false := by
    cases pat with
    | nil => exact absurd rfl hne
    | cons p0 pt =>
      refine isPrefixB_false_head ?_
      intro heq
      exact hnol (heq ▸ List.mem_cons_self p0 pt)
  have w1 : isPrefixB pat ('i' :: 'm' :: 'i' :: 't' :: (sp ++ (ds ++ k))) = false :=
    isPrefixB_eq_false_of_mismatchEarly hm1 (sp ++ (ds ++ k))
  have w2 : isPrefixB pat ('m' :: 'i' :: 't' :: (sp ++ (ds ++ k))) = false :=
    isPrefixB_eq_false_of_mismatchEarly hm2 (sp ++ (ds ++ k))
  have w3 : isPrefixB pat ('i' :: 't' :: (sp ++ (ds ++ k))) = false :=
    isPrefixB_eq_false_of_mismatchEarly hm3 (sp ++ (ds ++ k))
  have w4 : isPrefixB pat ('t' :: (sp ++ (ds ++ k))) = false :=
    isPrefixB_eq_false_of_mismatchEarly hm4 (sp ++ (ds ++ k))
  rw [containsSub_cons, w0, Bool.false_or, containsSub_cons, w1, Bool.false_or,
    containsSub_cons, w2, Bool.false_or, containsSub_cons, w3, Bool.false_or,
    containsSub_cons, w4, Bool.false_or]
  exact containsSub_space_run hP sp ds k hsp hds hall

theorem lowerStr_cons (c : Char) (s : List Char) :
    lowerStr (c :: s) = lowerChar c :: lowerStr s := rfl

theorem isPrefixB_cons (p c : Char) (pt cs : List Char) :
    isPrefixB (p :: pt) (c :: cs) = ((p == c) && isPrefixB pt cs) := rfl

theorem lowerStr_eq_self_of_all {s : List Char} (h : ∀ c ∈ s, lowerChar c = c) :
    lowerStr s = s := by
  unfold lowerStr
  induction s with
  | nil => rfl
  | cons c cs ih =>
    rw [List.map_cons, h c (by simp), ih (fun x hx => h x (by simp [hx]))]

theorem lowerStr_of_digits {ds : List Char} (h : ∀ c ∈ ds, isDigitB c = true) :
    lowerStr ds = ds :=
  lowerStr_eq_self_of_all (fun c hc => lowerChar_of_isDigitB (h c hc))

theorem lowerStr_of_spaces {sp : List Char} (h : ∀ c ∈ sp, isPySpace c = true) :
    lowerStr sp = sp :=
  lowerStr_eq_self_of_all (fun c hc => lowerChar_of_isPySpace (h c hc))

theorem isPrefixB_lower_subLimit (d : List Char) :
    ∀ pat, 'l' ∉ pat → ∀ (s : List Char) (pw : Bool),
      isPrefixB pat (lowerStr (subLimit d pw s)) = isPrefixB pat (lowerStr s) := by
  intro pat
  induction pat with
  | nil => intro _ s pw; rfl
  | cons p pt ih =>
    intro hnol s pw
    cases s with
    | nil => rw [subLimit_nil]
    | cons c cs =>
      have hnol' : 'l' ∉ pt := fun h => hnol (by simp [h])
      have hpl : p ≠ 'l' := fun h => hnol (by simp [h])
      cases pw with
      | true =>
        rw [subLimit_cons_true, lowerStr_cons, lowerStr_cons, isPrefixB_cons,
          isPrefixB_cons, ih hnol' cs (isWordChar c)]
      | false =>
        cases hm : matchLimitNum (c :: cs) with
        | none =>
          rw [subLimit_cons_none d hm, lowerStr_cons, lowerStr_cons, isPrefixB_cons,
            isPrefixB_cons, ih hnol' cs (isWordChar c)]
        | some nr =>
          obtain ⟨n, rest⟩ := nr
          obtain ⟨l5, sp, ds, heq, hl5, -, -, -, -, -, -⟩ := matchLimitNum_inv hm
          obtain ⟨a, b, c2, e, f, hl5eq, ha, -, -, -, -⟩ := lowerStr_eq_limit_inv hl5
          subst hl5eq
          have hca : c = a := by
            have := congrArg List.head? heq
            simpa using this
          rw [subLimit_cons_match d hm]
          have hfalse1 : isPrefixB (p :: pt)
              (lowerStr (("LIMIT ").toList ++ d ++ subLimit d true rest)) = false := by
            rw [show ("LIMIT ").toList ++ d ++ subLimit d true rest =
              'L' :: (("IMIT ").toList ++ (d ++ subLimit d true rest)) from by simp,
              lowerStr_cons, show lowerChar 'L' = 'l' from by decide]
            exact isPrefixB_false_head hpl
          have hfalse2 : isPrefixB (p :: pt) (lowerStr (c :: cs)) = false := by
            rw [lowerStr_cons, hca, ha]
            exact isPrefixB_false_head hpl
          rw [hfalse1, hfalse2]

theorem containsSub_lower_subLimit_aux {d : List Char} (hd : d ≠ [])
    (hdall : ∀ c ∈ d, isDigitB c = true) {pat : List Char} (hP : spanScanOk pat) :
    ∀ n (s : List Char), s.length ≤ n → ∀ pw,
      containsSub pat (lowerStr (subLimit d pw s)) = containsSub pat (lowerStr s) := by
  have hnol : 'l' ∉ pat := hP.2.1
  intro n
  induction n with
  | zero =>
    intro s hs pw
    have hnil : s = [] := by
      cases s with
      | nil => rfl
      | cons c cs => simp at hs
    subst hnil
    rw [subLimit_nil]
  | succ n ih =>
    intro s hs pw
    cases s with
    | nil => rw [subLimit_nil]
    | cons c cs =>
      have hcopy : ∀ X, X = subLimit d (isWordChar c) cs →
          isPrefixB pat (lowerStr (c :: X)) = isPrefixB pat (lowerStr (c :: cs)) →
          containsSub pat (lowerStr (c :: X)) = containsSub pat (lowerStr (c :: cs)) := by
        intro X hX hwin
        rw [lowerStr_cons, lowerStr_cons, containsSub_cons, containsSub_cons]
        rw [lowerStr_cons, lowerStr_cons] at hwin
        rw [hwin, hX, ih cs (by simp at hs; omega) (isWordChar c)]
      cases pw with
      | true =>
        rw [subLimit_cons_true]
        refine hcopy _ rfl ?_
        have := isPrefixB_lower_subLimit d pat hnol (c :: cs) true
        rwa [subLimit_cons_true] at this
      | false =>
        cases hm : matchLimitNum (c :: cs) with
        | none =>
          rw [subLimit_cons_none d hm]
          refine hcopy _ rfl ?_
          have := isPrefixB_lower_subLimit d pat hnol (c :: cs) false
          rwa [subLimit_cons_none d hm] at this
        | some nr =>
          obtain ⟨m, rest⟩ := nr
          obtain ⟨l5, sp, ds, heq, hl5, hspne, hsp, hdsne, hds, -, hbrest⟩ :=
            matchLimitNum_inv hm
          rw [subLimit_cons_match d hm]
          have hLHS : lowerStr (("LIMIT ").toList ++ d ++ subLimit d true rest) =
              'l' :: 'i' :: 'm' :: 'i' :: 't' ::
                ([' '] ++ (d ++ lowerStr (subLimit d true rest))) := by
            rw [show ("LIMIT ").toList ++ d ++ subLimit d true rest =
              ['L', 'I', 'M', 'I', 'T', ' '] ++ (d ++ subLimit d true rest) from by simp]
            unfold lowerStr
            rw [List.map_append, List.map_append]
            rw [show List.map lowerChar ['L', 'I', 'M', 'I', 'T', ' '] =
              ['l', 'i', 'm', 'i', 't', ' '] from by decide]
            rw [show List.map lowerChar d = d from lowerStr_of_digits hdall]
            simp
          have hRHS : lowerStr (c :: cs) =
              'l' :: 'i' :: 'm' :: 'i' :: 't' :: (sp ++ (ds ++ lowerStr rest)) := by
            rw [heq]
            unfold lowerStr
            rw [show l5 ++ sp ++ ds ++ rest = l5 ++ (sp ++ (ds ++ rest)) from by
              simp [List.append_assoc]]
            rw [List.map_append, List.map_append, List.map_append]
            rw [show List.map lowerChar l5 = ['l', 'i', 'm', 'i', 't'] from hl5]
            rw [show List.map lowerChar sp = sp from lowerStr_of_spaces hsp]
            rw [show List.map lowerChar ds = ds from lowerStr_of_digits hds]
            simp
          rw [hLHS, hRHS]
          rw [containsSub_span hP [' '] d (lowerStr (subLimit d true rest))
            (by decide) hd hdall]
          rw [containsSub_span hP sp ds (lowerStr rest) hsp hdsne hds]
          have hrlen := matchLimitNum_rest_lt hm
          exact ih rest (by simp at hs hrlen; omega) true

theorem containsSub_lower_subLimit {d : List Char} (hd : d ≠ [])
    (hdall : ∀ c ∈ d, isDigitB c = true) {pat : List Char} (hP : spanScanOk pat)
    (s : List Char) (pw : Bool) :
    containsSub pat (lowerStr (subLimit d pw s)) = containsSub pat (lowerStr s) :=
  containsSub_lower_subLimit_aux hd hdall hP s.length s le_rfl pw

/-! ## Whole-word search across the rewritten string -/

theorem boundaryOk_subLimit (d : List Char) (s : List Char) (pw : Bool) :
    boundaryOk (subLimit d pw s) = boundaryOk s := by
  cases s with
  | nil => rw [subLimit_nil]
  | cons c cs =>
    cases pw with
    | true => rw [subLimit_cons_true]; rfl
    | false =>
      cases hm : matchLimitNum (c :: cs) with
      | none => rw [subLimit_cons_none d hm]; rfl
      | some nr =>
        obtain ⟨n, rest⟩ := nr
        obtain ⟨l5, sp, ds, heq, hl5, -, -, -, -, -, -⟩ := matchLimitNum_inv hm
        obtain ⟨a, b, c2, e, f, hl5eq, ha, -, -, -, -⟩ := lowerStr_eq_limit_inv hl5
        subst hl5eq
        have hca : c = a := by
          have := congrArg List.head? heq
          simpa using this
        rw [subLimit_cons_match d hm]
        have h1 : boundaryOk (("LIMIT ").toList ++ d ++ subLimit d true rest) = false := by
          rw [show ("LIMIT ").toList ++ d ++ subLimit d true rest =
            'L' :: (("IMIT ").toList ++ (d ++ subLimit d true rest)) from by simp]
          show (!isWordChar 'L') = false
          decide
        have h2 : boundaryOk (c :: cs) = false := by
          have hwc : isWordChar c = true := by
            rw [hca]
            exact isWordChar_of_lower_letter ha (by decide)
          simp [boundaryOk, hwc]
        rw [h1, h2]

theorem kwHeadMatch_nil (s : List Char) : kwHeadMatch [] s = boundaryOk s := rfl

theorem kwHeadMatch_span_false {kw : List Char} (hne : kw ≠ [])
    (hlow : ∀ k ∈ kw, isAsciiLowerB k = true)
    (hpref : isPrefixB kw limitKw = false)
    {l5 sp ds : List Char} (k : List Char)
    (hl5 : lowerStr l5 = limitKw)
    (hspne : sp ≠ []) (hsp : ∀ c ∈ sp, isPySpace c = true)
    (hdsne : ds ≠ []) (hds : ∀ c ∈ ds, isDigitB c = true) :
    kwHeadMatch kw (l5 ++ (sp ++ (ds ++ k))) = false := by
  obtain ⟨a, b, c2, e, f, hl5eq, ha, hb, hc, he, hf⟩ := lowerStr_eq_limit_inv hl5
  subst hl5eq
  have hwb : isWordChar b = true := isWordChar_of_lower_letter hb (by decide)
  have hwc2 : isWordChar c2 = true := isWordChar_of_lower_letter hc (by decide)
  have hwe : isWordChar e = true := isWordChar_of_lower_letter he (by decide)
  have hwf : isWordChar f = true := isWordChar_of_lower_letter hf (by decide)
  obtain ⟨s1, sp', rfl⟩ : ∃ s1 sp', sp = s1 :: sp' := by
    cases sp with
    | nil => exact absurd rfl hspne
    | cons s1 sp' => exact ⟨s1, sp', rfl⟩
  have hs1 : isPySpace s1 = true := hsp s1 (by simp)
  simp only [List.cons_append, List.nil_append]
  rcases kw with _ | ⟨k1, _ | ⟨k2, _ | ⟨k3, _ | ⟨k4, _ | ⟨k5, _ | ⟨k6, kr⟩⟩⟩⟩⟩⟩
  · exact absurd rfl hne
  · rw [kwHeadMatch_cons]
    split
    · simp [kwHeadMatch_nil, boundaryOk, hwb]
    · rfl
  · rw [kwHeadMatch_cons]
    split
    · rw [kwHeadMatch_cons]
      split
      · simp [kwHeadMatch_nil, boundaryOk, hwc2]
      · rfl
    · rfl
  · rw [kwHeadMatch_cons]
    split
    · rw [kwHeadMatch_cons]
      split
      · rw [kwHeadMatch_cons]
        split
        · simp [kwHeadMatch_nil, boundaryOk, hwe]
        · rfl
      · rfl
    · rfl
  · rw [kwHeadMatch_cons]
    split
    · rw [kwHeadMatch_cons]
      split
      · rw [kwHeadMatch_cons]
        split
        · rw [kwHeadMatch_cons]
          split
          · simp [kwHeadMatch_nil, boundaryOk, hwf]
          · rfl
        · rfl
      · rfl
    · rfl
  · rw [kwHeadMatch_cons]
    split
    · rename_i h1
      rw [kwHeadMatch_cons]
      split
      · rename_i h2
        rw [kwHeadMatch_cons]
        split
        · rename_i h3
          rw [kwHeadMatch_cons]
          split
          · rename_i h4
            rw [kwHeadMatch_cons]
            split
            · rename_i h5
              exfalso
              have e1 : k1 = 'l' := by rw [← h1, ha]
              have e2 : k2 = 'i' := by rw [← h2, hb]
              have e3 : k3 = 'm' := by rw [← h3, hc]
              have e4 : k4 = 'i' := by rw [← h4, he]
              have e5 : k5 = 't' := by rw [← h5, hf]
              subst e1; subst e2; subst e3; subst e4; subst e5
              exact absurd hpref (by decide)
            · rfl
          · rfl
        · rfl
      · rfl
    · rfl
  · rw [kwHeadMatch_cons]
    split
    · rw [kwHeadMatch_cons]
      split
      · rw [kwHeadMatch_cons]
        split
        · rw [kwHeadMatch_cons]
          split
          · rw [kwHeadMatch_cons]
            split
            · rw [kwHeadMatch_cons]
              split
              · rename_i h6
                exfalso
                have hk6 : isAsciiLowerB k6 = true := hlow k6 (by simp)
                have hs1' : lowerChar s1 = s1 := lowerChar_of_isPySpace hs1
                rw [hs1'] at h6
                rw [← h6] at hk6
                rw [isPySpace_toNat] at hs1
                simp only [isAsciiLowerB, Bool.and_eq_true, decide_eq_true_eq] at hk6
                omega
              · rfl
            · rfl
          · rfl
        · rfl
      · rfl
    · rfl

/-- The conditions on a search keyword under which the whole-word search
commutes with the `LIMIT`-clause rewrite: all-lowercase-letter keyword,
none of whose non-empty suffixes is a prefix of `limit`.  All eleven
banned keywords satisfy this. -/
def goodKw (kw : List Char) : Prop :=
  (∀ k ∈ kw, isAsciiLowerB k = true) ∧
  (∀ t ∈ kw.tails, t = [] ∨ isPrefixB t limitKw = false)

theorem goodKw_tail {k1 : Char} {kt : List Char} (h : goodKw (k1 :: kt)) : goodKw kt := by
  obtain ⟨h1, h2⟩ := h
  refine ⟨fun k hk => h1 k (by simp [hk]), fun t ht => h2 t ?_⟩
  rw [List.tails_cons]
  exact List.mem_cons_of_mem _ ht

theorem goodKw_not_limit_prefix {kw : List Char} (h : goodKw kw) (hne : kw ≠ []) :
    isPrefixB kw limitKw = false := by
  have := h.2 kw (by
    cases kw with
    | nil => simp
    | cons a t => rw [List.tails_cons]; exact List.mem_cons_self _ _)
  rcases this with h' | h'
  · exact absurd h' hne
  · exact h'

theorem kwHeadMatch_subLimit (d : List Char) (hd : d ≠ [])
    (hdall : ∀ c ∈ d, isDigitB c = true) :
    ∀ kw, goodKw kw → ∀ (s : List Char) (pw : Bool),
      kwHeadMatch kw (subLimit d pw s) = kwHeadMatch kw s := by
  intro kw
  induction kw with
  | nil =>
    intro _ s pw
    rw [kwHeadMatch_nil, kwHeadMatch_nil]
    exact boundaryOk_subLimit d s pw
  | cons k1 kt ih =>
    intro hg s pw
    cases s with
    | nil => rw [subLimit_nil]
    | cons c cs =>
      cases pw with
      | true =>
        rw [subLimit_cons_true, kwHeadMatch_cons, kwHeadMatch_cons,
          ih (goodKw_tail hg) cs (isWordChar c)]
      | false =>
        cases hm : matchLimitNum (c :: cs) with
        | none =>
          rw [subLimit_cons_none d hm, kwHeadMatch_cons, kwHeadMatch_cons,
            ih (goodKw_tail hg) cs (isWordChar c)]
        | some nr =>
          obtain ⟨n, rest⟩ := nr
          obtain ⟨l5, sp, ds, heq, hl5, hspne, hsp, hdsne, hds, -, -⟩ :=
            matchLimitNum_inv hm
          rw [subLimit_cons_match d hm]
          have hgne : (k1 :: kt) ≠ [] := by simp
          have hpref := goodKw_not_limit_prefix hg hgne
          have h1 : kwHeadMatch (k1 :: kt)
              (("LIMIT ").toList ++ d ++ subLimit d true rest) = false := by
            rw [show ("LIMIT ").toList ++ d ++ subLimit d true rest =
              ['L', 'I', 'M', 'I', 'T'] ++ ([' '] ++ (d ++ subLimit d true rest))
              from by simp]
            exact kwHeadMatch_span_false hgne hg.1 hpref _ (by decide) (by simp)
              (by decide) hd hdall
          have h2 : kwHeadMatch (k1 :: kt) (c :: cs) = false := by
            rw [show c :: cs = l5 ++ (sp ++ (ds ++ rest)) from by
              rw [heq]; simp [List.append_assoc]]
            exact kwHeadMatch_span_false hgne hg.1 hpref _ hl5 hspne hsp hdsne hds
          rw [h1, h2]

theorem searchWord_cons_pwtrue (kw : List Char) (c : Char) (cs : List Char) :
    searchWord kw true (c :: cs) = searchWord kw (isWordChar c) cs := by
  rw [searchWord_cons, wordMatchAt_true, Bool.false_or]

theorem searchWord_cons_nohead {kw : List Char} {c : Char} {cs : List Char}
    (h : kwHeadMatch kw (c :: cs) = false) (pw : Bool) :
    searchWord kw pw (c :: cs) = searchWord kw (isWordChar c) cs := by
  rw [searchWord_cons]
  simp [wordMatchAt, h]

theorem searchWord_word_run (kw : List Char) :
    ∀ (xs r : List Char), (∀ x ∈ xs, isWordChar x = true) →
      searchWord kw true (xs ++ r) = searchWord kw (pwAfter true xs) r := by
  intro xs
  induction xs with
  | nil => intro r _; rfl
  | cons x xt ih =>
    intro r hall
    rw [List.cons_append, searchWord_cons_pwtrue, hall x (by simp), pwAfter_cons,
      hall x (by simp)]
    exact ih r (fun z hz => hall z (by simp [hz]))

theorem searchWord_nonletter_run {kw : List Char} {k1 : Char} {kt : List Char}
    (hkw : kw = k1 :: kt) :
    ∀ (xs r : List Char) (pw : Bool), (∀ x ∈ xs, lowerChar x ≠ k1) →
      searchWord kw pw (xs ++ r) = searchWord kw (pwAfter pw xs) r := by
  intro xs
  induction xs with
  | nil => intro r pw _; rfl
  | cons x xt ih =>
    intro r pw hall
    have hhead : kwHeadMatch kw (x :: (xt ++ r)) = false := by
      rw [hkw, kwHeadMatch_cons, if_neg (hall x (by simp))]
    rw [List.cons_append, searchWord_cons_nohead hhead, pwAfter_cons]
    exact ih r (isWordChar x) (fun z hz => hall z (by simp [hz]))

theorem lowerChar_space_ne_letter {x k : Char} (hx : isPySpace x = true)
    (hk : isAsciiLowerB k = true) : lowerChar x ≠ k := by
  rw [lowerChar_of_isPySpace hx]
  intro heq
  rw [char_eq_iff_toNat] at heq
  rw [isPySpace_toNat] at hx
  simp only [isAsciiLowerB, Bool.and_eq_true, decide_eq_true_eq] at hk
  omega

theorem lowerChar_digit_ne_letter {x k : Char} (hx : isDigitB x = true)
    (hk : isAsciiLowerB k = true) : lowerChar x ≠ k := by
  rw [lowerChar_of_isDigitB hx]
  intro heq
  rw [char_eq_iff_toNat] at heq
  rw [isDigitB_toNat] at hx
  simp only [isAsciiLowerB, Bool.and_eq_true, decide_eq_true_eq] at hk
  omega

theorem pwAfter_false_of_spaces {sp : List Char} (h : ∀ c ∈ sp, isPySpace c = true) :
    pwAfter false sp = false := by
  unfold pwAfter
  cases hl : sp.getLast? with
  | none => rfl
  | some y =>
    exact not_isWordChar_of_isPySpace (h y (mem_of_getLast?_eq_some hl))

theorem searchWord_subLimit_aux (d : List Char) (hd : d ≠ [])
    (hdall : ∀ c ∈ d, isDigitB c = true) (k1 : Char) (kt : List Char)
    (hg : goodKw (k1 :: kt)) :
    ∀ n (s : List Char), s.length ≤ n → ∀ pw,
      searchWord (k1 :: kt) pw (subLimit d pw s) = searchWord (k1 :: kt) pw s := by
  have hk1 : isAsciiLowerB k1 = true := hg.1 k1 (by simp)
  have hgne : (k1 :: kt) ≠ [] := by simp
  have hpref := goodKw_not_limit_prefix hg hgne
  intro n
  induction n with
  | zero =>
    intro s hs pw
    have hnil : s = [] := by
      cases s with
      | nil => rfl
      | cons c cs => simp at hs
    subst hnil
    rw [subLimit_nil]
  | succ n ih =>
    intro s hs pw
    cases s with
    | nil => rw [subLimit_nil]
    | cons c cs =>
      cases pw with
      | true =>
        rw [subLimit_cons_true, searchWord_cons_pwtrue, searchWord_cons_pwtrue]
        exact ih cs (by simp at hs; omega) (isWordChar c)
      | false =>
        cases hm : matchLimitNum (c :: cs) with
        | none =>
          have hhead := kwHeadMatch_subLimit d hd hdall (k1 :: kt) hg (c :: cs) false
          rw [subLimit_cons_none d hm] at hhead
          rw [subLimit_cons_none d hm, searchWord_cons, searchWord_cons]
          simp only [wordMatchAt, Bool.not_false, Bool.true_and]
          rw [hhead, ih cs (by simp at hs; omega) (isWordChar c)]
        | some nr =>
          obtain ⟨m, rest⟩ := nr
          obtain ⟨l5, sp, ds, heq, hl5, hspne, hsp, hdsne, hds, -, -⟩ :=
            matchLimitNum_inv hm
          obtain ⟨a, b, c2, e, f, hl5eq, ha, hbl, hcl, hel, hfl⟩ :=
            lowerStr_eq_limit_inv hl5
          subst hl5eq
          obtain ⟨s1, sp', rfl⟩ : ∃ s1 sp', sp = s1 :: sp' := by
            cases sp with
            | nil => exact absurd rfl hspne
            | cons s1 sp' => exact ⟨s1, sp', rfl⟩
          have hs1 : isPySpace s1 = true := hsp s1 (by simp)
          have hrlen := matchLimitNum_rest_lt hm
          rw [subLimit_cons_match d hm]
          have hL : searchWord (k1 :: kt) false
              (("LIMIT ").toList ++ d ++ subLimit d true rest) =
              searchWord (k1 :: kt) true (subLimit d true rest) := by
            have hhead0 : kwHeadMatch (k1 :: kt)
                ('L' :: (("IMIT ").toList ++ (d ++ subLimit d true rest))) = false := by
              rw [show 'L' :: (("IMIT ").toList ++ (d ++ subLimit d true rest)) =
                ['L', 'I', 'M', 'I', 'T'] ++ ([' '] ++ (d ++ subLimit d true rest))
                from by simp]
              exact kwHeadMatch_span_false hgne hg.1 hpref _ (by decide) (by simp)
                (by decide) hd hdall
            rw [show ("LIMIT ").toList ++ d ++ subLimit d true rest =
              'L' :: (("IMIT ").toList ++ (d ++ subLimit d true rest)) from by simp]
            rw [searchWord_cons_nohead hhead0]
            rw [show isWordChar 'L' = true from by decide]
            rw [show ("IMIT ").toList ++ (d ++ subLimit d true rest) =
              ['I', 'M', 'I', 'T'] ++ (' ' :: (d ++ subLimit d true rest)) from by simp]
            rw [searchWord_word_run _ _ _ (by decide)]
            rw [show pwAfter true ['I', 'M', 'I', 'T'] = true from by decide]
            rw [searchWord_cons_pwtrue]
            rw [show isWordChar ' ' = false from by decide]
            rw [searchWord_nonletter_run rfl d _ false
              (fun x hx => lowerChar_digit_ne_letter (hdall x hx) hk1)]
            rw [show pwAfter false d = true from by
              have h9 := @pwAfter_true_of_digits_suffix [] d false hd hdall
              simpa using h9]
          have hshape : c :: cs = a :: ([b, c2, e, f] ++ (s1 :: (sp' ++ (ds ++ rest)))) := by
            rw [heq]; simp [List.append_assoc]
          have hR : searchWord (k1 :: kt) false (c :: cs) =
              searchWord (k1 :: kt) true rest := by
            rw [hshape]
            have hhead0 : kwHeadMatch (k1 :: kt)
                (a :: ([b, c2, e, f] ++ (s1 :: (sp' ++ (ds ++ rest))))) = false := by
              rw [show a :: ([b, c2, e, f] ++ (s1 :: (sp' ++ (ds ++ rest)))) =
                [a, b, c2, e, f] ++ ((s1 :: sp') ++ (ds ++ rest)) from by simp]
              exact kwHeadMatch_span_false hgne hg.1 hpref _ hl5 hspne hsp hdsne hds
            rw [show (a :: ([b, c2, e, f] ++ (s1 :: (sp' ++ (ds ++ rest))))) =
              a :: (([b, c2, e, f] ++ (s1 :: (sp' ++ (ds ++ rest))))) from rfl]
            rw [searchWord_cons_nohead hhead0]
            rw [show isWordChar a = true from isWordChar_of_lower_letter ha (by decide)]
            have hword4 : ∀ x ∈ [b, c2, e, f], isWordChar x = true := by
              intro x hx
              simp only [List.mem_cons, List.not_mem_nil, or_false] at hx
              rcases hx with h1 | h1 | h1 | h1
              · exact h1 ▸ isWordChar_of_lower_letter hbl (by decide)
              · exact h1 ▸ isWordChar_of_lower_letter hcl (by decide)
              · exact h1 ▸ isWordChar_of_lower_letter hel (by decide)
              · exact h1 ▸ isWordChar_of_lower_letter hfl (by decide)
            rw [searchWord_word_run _ _ _ hword4]
            rw [show pwAfter true [b, c2, e, f] = true from by
              unfold pwAfter
              simp only [List.getLast?_cons_cons, List.getLast?_cons, List.getLast?_nil]
              exact hword4 f (by simp)]
            rw [searchWord_cons_pwtrue]
            rw [not_isWordChar_of_isPySpace hs1]
            rw [show sp' ++ (ds ++ rest) = (sp' ++ ds) ++ rest from by
              simp [List.append_assoc]]
            have hrunne : ∀ x ∈ sp' ++ ds, lowerChar x ≠ k1 := by
              intro x hx
              rcases List.mem_append.mp hx with h1 | h1
              · exact lowerChar_space_ne_letter (hsp x (by simp [h1])) hk1
              · exact lowerChar_digit_ne_letter (hds x h1) hk1
            rw [searchWord_nonletter_run rfl (sp' ++ ds) rest false hrunne]
            rw [pwAfter_true_of_digits_suffix hdsne hds]
          rw [hL, hR]
          exact ih rest (by simp at hs hrlen; omega) true

theorem searchWord_subLimit (d : List Char) (hd : d ≠ [])
    (hdall : ∀ c ∈ d, isDigitB c = true) {kw : List Char} (hg : goodKw kw)
    (hne : kw ≠ []) (s : List Char) (pw : Bool) :
    searchWord kw pw (subLimit d pw s) = searchWord kw pw s := by
  obtain ⟨k1, kt, rfl⟩ : ∃ k1 kt, kw = k1 :: kt := by
    cases kw with
    | nil => exact absurd rfl hne
    | cons k1 kt => exact ⟨k1, kt, rfl⟩
  exact searchWord_subLimit_aux d hd hdall k1 kt hg s.length s le_rfl pw

/-! ## Statement splitting across the rewritten string -/

theorem segCount_cons_semi (seen : Bool) (cs : List Char) :
    segCount seen (';' :: cs) = (if seen then 1 else 0) + segCount false cs := by
  simp [segCount]

theorem segCount_cons_other {c : Char} (h : c ≠ ';') (seen : Bool) (cs : List Char) :
    segCount seen (c :: cs) = segCount (seen || !isPySpace c) cs := by
  simp [segCount, h]

theorem segCount_append_noSemi :
    ∀ (xs r : List Char) (seen : Bool), (∀ c ∈ xs, c ≠ ';') →
      segCount seen (xs ++ r) =
        segCount (seen || xs.any (fun c => !isPySpace c)) r := by
  intro xs
  induction xs with
  | nil => intro r seen _; simp
  | cons x xt ih =>
    intro r seen hall
    rw [List.cons_append, segCount_cons_other (hall x (by simp)),
      ih r _ (fun c hc => hall c (by simp [hc]))]
    rw [List.any_cons]
    rw [Bool.or_assoc]

theorem ne_semi_of_lower_letter {y k : Char} (h : lowerChar y = k)
    (hk : isAsciiLowerB k = true) : y ≠ ';' := by
  intro heq
  subst heq
  rw [show lowerChar ';' = ';' from by decide] at h
  subst h
  exact absurd hk (by decide)

theorem ne_semi_of_isPySpace {y : Char} (h : isPySpace y = true) : y ≠ ';' := by
  intro heq
  subst heq
  exact absurd h (by decide)

theorem ne_semi_of_isDigitB {y : Char} (h : isDigitB y = true) : y ≠ ';' := by
  intro heq
  subst heq
  exact absurd h (by decide)

theorem not_isPySpace_of_lower_letter {y k : Char} (h : lowerChar y = k)
    (hk : isAsciiLowerB k = true) : isPySpace y = false := by
  rw [← isPySpace_lowerChar, h]
  rw [← Bool.not_eq_true, isPySpace_toNat]
  simp only [isAsciiLowerB, Bool.and_eq_true, decide_eq_true_eq] at hk
  omega

theorem segCount_subLimit_aux (d : List Char) (hd : d ≠ [])
    (hdall : ∀ c ∈ d, isDigitB c = true) :
    ∀ n (s : List Char), s.length ≤ n → ∀ pw seen,
      segCount seen (subLimit d pw s) = segCount seen s := by
  intro n
  induction n with
  | zero =>
    intro s hs pw seen
    have hnil : s = [] := by
      cases s with
      | nil => rfl
      | cons c cs => simp at hs
    subst hnil
    rw [subLimit_nil]
  | succ n ih =>
    intro s hs pw seen
    cases s with
    | nil => rw [subLimit_nil]
    | cons c cs =>
      have hcopy : segCount seen (c :: subLimit d (isWordChar c) cs) =
          segCount seen (c :: cs) := by
        by_cases hsemi : c = ';'
        · subst hsemi
          rw [segCount_cons_semi, segCount_cons_semi,
            ih cs (by simp at hs; omega) (isWordChar ';') false]
        · rw [segCount_cons_other hsemi, segCount_cons_other hsemi,
            ih cs (by simp at hs; omega) (isWordChar c) _]
      cases pw with
      | true => rw [subLimit_cons_true]; exact hcopy
      | false =>
        cases hm : matchLimitNum (c :: cs) with
        | none => rw [subLimit_cons_none d hm]; exact hcopy
        | some nr =>
          obtain ⟨m, rest⟩ := nr
          obtain ⟨l5, sp, ds, heq, hl5, hspne, hsp, hdsne, hds, -, -⟩ :=
            matchLimitNum_inv hm
          obtain ⟨a, b, c2, e, f, hl5eq, ha, hbl, hcl, hel, hfl⟩ :=
            lowerStr_eq_limit_inv hl5
          subst hl5eq
          have hrlen := matchLimitNum_rest_lt hm
          rw [subLimit_cons_match d hm]
          have hnosemiL : ∀ x ∈ ("LIMIT ").toList ++ d, x ≠ ';' := by
            intro x hx
            rcases List.mem_append.mp hx with h1 | h1
            · simp only [show ("LIMIT ").toList = ['L', 'I', 'M', 'I', 'T', ' ']
                from by decide, List.mem_cons, List.not_mem_nil, or_false] at h1
              rcases h1 with h2 | h2 | h2 | h2 | h2 | h2 <;> (subst h2; decide)
            · exact ne_semi_of_isDigitB (hdall x h1)
          have hL : segCount seen (("LIMIT ").toList ++ d ++ subLimit d true rest) =
              segCount true (subLimit d true rest) := by
            rw [show ("LIMIT ").toList ++ d ++ subLimit d true rest =
              (("LIMIT ").toList ++ d) ++ subLimit d true rest from by
              simp [List.append_assoc]]
            rw [segCount_append_noSemi _ _ seen hnosemiL]
            have hany : (("LIMIT ").toList ++ d).any (fun c => !isPySpace c) = true := by
              rw [show ("LIMIT ").toList ++ d = 'L' :: (("IMIT ").toList ++ d)
                from by simp]
              rw [List.any_cons]
              rw [show (!isPySpace 'L') = true from by decide]
              rw [Bool.true_or]
            rw [hany, Bool.or_true]
          have hnosemiR : ∀ x ∈ [a, b, c2, e, f] ++ (sp ++ ds), x ≠ ';' := by
            intro x hx
            rcases List.mem_append.mp hx with h1 | h1
            · simp only [List.mem_cons, List.not_mem_nil, or_false] at h1
              rcases h1 with h2 | h2 | h2 | h2 | h2
              · exact ne_semi_of_lower_letter (h2 ▸ ha) (by decide)
              · exact ne_semi_of_lower_letter (h2 ▸ hbl) (by decide)
              · exact ne_semi_of_lower_letter (h2 ▸ hcl) (by decide)
              · exact ne_semi_of_lower_letter (h2 ▸ hel) (by decide)
              · exact ne_semi_of_lower_letter (h2 ▸ hfl) (by decide)
            · rcases List.mem_append.mp h1 with h2 | h2
              · exact ne_semi_of_isPySpace (hsp x h2)
              · exact ne_semi_of_isDigitB (hds x h2)
          have hR : segCount seen (c :: cs) = segCount true rest := by
            rw [show c :: cs = ([a, b, c2, e, f] ++ (sp ++ ds)) ++ rest from by
              rw [heq]; simp [List.append_assoc]]
            rw [segCount_append_noSemi _ _ seen hnosemiR]
            have hany : (([a, b, c2, e, f] ++ (sp ++ ds)).any
                (fun c => !isPySpace c)) = true := by
              rw [show [a, b, c2, e, f] ++ (sp ++ ds) =
                a :: ([b, c2, e, f] ++ (sp ++ ds)) from by simp]
              rw [List.any_cons]
              rw [not_isPySpace_of_lower_letter ha (by decide)]
              rw [show (!false) = true from by decide]
              rw [Bool.true_or]
            rw [hany, Bool.or_true]
          rw [hL, hR]
          exact ih rest (by simp at hs hrlen; omega) true true

theorem segCount_subLimit (d : List Char) (hd : d ≠ [])
    (hdall : ∀ c ∈ d, isDigitB c = true) (s : List Char) (pw seen : Bool) :
    segCount seen (subLimit d pw s) = segCount seen s :=
  segCount_subLimit_aux d hd hdall s.length s le_rfl pw seen

theorem splitSemi_ne_nil (s : List Char) : splitSemi s ≠ [] := by
  cases s with
  | nil => simp [splitSemi]
  | cons c cs =>
    simp only [splitSemi]
    split
    · simp
    · split
      · simp
      · simp

theorem segCount_eq_splitSemi :
    ∀ (s : List Char) (seen : Bool),
      segCount seen s = (match splitSemi s with
        | [] => 0
        | t :: ts => (if seen || t.any (fun c => !isPySpace c) then 1 else 0) +
            (ts.filter (fun u => u.any (fun c => !isPySpace c))).length) := by
  intro s
  induction s with
  | nil => intro seen; simp [segCount, splitSemi]
  | cons c cs ih =>
    intro seen
    by_cases hsemi : c = ';'
    · subst hsemi
      rw [segCount_cons_semi, ih false]
      have hsplit : splitSemi (';' :: cs) = [] :: splitSemi cs := by
        simp [splitSemi]
      rw [hsplit]
      cases hsp : splitSemi cs with
      | nil => exact absurd hsp (splitSemi_ne_nil cs)
      | cons t ts =>
        simp only [List.any_nil, Bool.or_false]
        rw [List.filter_cons]
        by_cases hat : t.any (fun c => !isPySpace c) = true
        · rw [if_pos hat, Bool.false_or, if_pos hat, List.length_cons]
          by_cases hseen : seen = true
          · rw [if_pos hseen]; ring
          · rw [if_neg hseen]; ring
        · simp only [Bool.not_eq_true] at hat
          have hat' : ¬ ((t.any fun c => !isPySpace c) = true) := by simp [hat]
          rw [if_neg hat', Bool.false_or, if_neg hat']
          by_cases hseen : seen = true
          · rw [if_pos hseen]; ring
          · rw [if_neg hseen]; ring
    · rw [segCount_cons_other hsemi, ih _]
      cases hsp : splitSemi cs with
      | nil => exact absurd hsp (splitSemi_ne_nil cs)
      | cons t ts =>
        have hsplit : splitSemi (c :: cs) = (c :: t) :: ts := by
          simp only [splitSemi, if_neg hsemi, hsp]
        rw [hsplit]
        simp only [List.any_cons, Bool.or_assoc]

theorem pyStrip_isEmpty_eq (u : List Char) :
    (!(pyStrip u).isEmpty) = u.any (fun c => !isPySpace c) := by
  cases hany : u.any (fun c => !isPySpace c) with
  | true =>
    simp only [List.any_eq_true, Bool.not_eq_true'] at hany
    obtain ⟨c, hc, hcs⟩ := hany
    have hne : pyStrip u ≠ [] := by
      intro hnil
      have := pyStrip_eq_nil_iff.mp hnil c hc
      rw [this] at hcs
      exact Bool.noConfusion hcs
    simp [List.isEmpty_iff, hne]
  | false =>
    have hall : ∀ c ∈ u, isPySpace c = true := by
      intro c hc
      have h1 : u.any (fun c => !isPySpace c) = false := hany
      rw [List.any_eq_false] at h1
      have := h1 c hc
      simpa using this
    have : pyStrip u = [] := pyStrip_eq_nil_iff.mpr hall
    simp [this]

theorem singleStatement_eq_segCount (sql : List Char) :
    singleStatement sql = (segCount false (pyStrip sql) == 1) := by
  unfold singleStatement
  rw [segCount_eq_splitSemi]
  cases hsp : splitSemi (pyStrip sql) with
  | nil => exact absurd hsp (splitSemi_ne_nil _)
  | cons t ts =>
    have hfilter : ∀ (L : List (List Char)),
        ((L.map pyStrip).filter (fun p => !p.isEmpty)).length =
          (L.filter (fun u => u.any (fun c => !isPySpace c))).length := by
      intro L
      induction L with
      | nil => rfl
      | cons u us ihL =>
        rw [List.map_cons, List.filter_cons, List.filter_cons,
          pyStrip_isEmpty_eq u]
        by_cases h : u.any (fun c => !isPySpace c) = true
        · rw [if_pos h, if_pos h, List.length_cons, List.length_cons, ihL]
        · rw [if_neg h, if_neg h, ihL]
    rw [hfilter (t :: ts), List.filter_cons]
    simp only [Bool.false_or]
    by_cases h : t.any (fun c => !isPySpace c) = true
    · rw [if_pos h, if_pos h, List.length_cons]
      rw [Nat.add_comm]
    · rw [if_neg h, if_neg h]
      rw [Nat.zero_add]

/-! ## The scan does not depend on prior lowercasing -/

theorem stripPrefixLower_lower : ∀ (kw s : List Char),
    stripPrefixLower kw (lowerStr s) = (stripPrefixLower kw s).map lowerStr := by
  intro kw
  induction kw with
  | nil => intro s; rfl
  | cons k ks ih =>
    intro s
    cases s with
    | nil => rfl
    | cons c cs =>
      rw [lowerStr_cons]
      simp only [stripPrefixLower, lowerChar_lowerChar]
      split
      · exact ih cs
      · rfl

theorem boundaryOk_lower (s : List Char) : boundaryOk (lowerStr s) = boundaryOk s := by
  cases s with
  | nil => rfl
  | cons c cs =>
    rw [lowerStr_cons]
    simp [boundaryOk, isWordChar_lowerChar]

theorem takeWhile_lowerStr_pySpace (s : List Char) :
    (lowerStr s).takeWhile isPySpace = lowerStr (s.takeWhile isPySpace) := by
  unfold lowerStr
  rw [List.takeWhile_map]
  have : (isPySpace ∘ lowerChar) = isPySpace := funext isPySpace_lowerChar
  rw [this]

theorem dropWhile_lowerStr_pySpace (s : List Char) :
    (lowerStr s).dropWhile isPySpace = lowerStr (s.dropWhile isPySpace) := by
  unfold lowerStr
  rw [List.dropWhile_map]
  have : (isPySpace ∘ lowerChar) = isPySpace := funext isPySpace_lowerChar
  rw [this]

theorem takeWhile_lowerStr_digit (s : List Char) :
    (lowerStr s).takeWhile isDigitB = lowerStr (s.takeWhile isDigitB) := by
  unfold lowerStr
  rw [List.takeWhile_map]
  have : (isDigitB ∘ lowerChar) = isDigitB := funext isDigitB_lowerChar
  rw [this]

theorem dropWhile_lowerStr_digit (s : List Char) :
    (lowerStr s).dropWhile isDigitB = lowerStr (s.dropWhile isDigitB) := by
  unfold lowerStr
  rw [List.dropWhile_map]
  have : (isDigitB ∘ lowerChar) = isDigitB := funext isDigitB_lowerChar
  rw [this]

theorem lowerStr_isEmpty (s : List Char) : (lowerStr s).isEmpty = s.isEmpty := by
  cases s <;> rfl

theorem matchLimitNum_lower (s : List Char) :
    matchLimitNum (lowerStr s) =
      (matchLimitNum s).map (fun p => (p.1, lowerStr p.2)) := by
  unfold matchLimitNum
  rw [stripPrefixLower_lower]
  cases hs : stripPrefixLower limitKw s with
  | none => rfl
  | some r1 =>
    simp only [Option.map_some']
    rw [takeWhile_lowerStr_pySpace, dropWhile_lowerStr_pySpace, lowerStr_isEmpty,
      takeWhile_lowerStr_digit, dropWhile_lowerStr_digit, lowerStr_isEmpty,
      boundaryOk_lower]
    split
    · rfl
    · split
      · rfl
      · split
        · rw [show digitsVal (lowerStr ((r1.dropWhile isPySpace).takeWhile isDigitB)) =
            digitsVal ((r1.dropWhile isPySpace).takeWhile isDigitB) from by
            rw [lowerStr_of_digits takeWhile_all_true]]
          rfl
        · rfl

theorem limitNums_lower_aux :
    ∀ n (s : List Char), s.length ≤ n → ∀ pw,
      limitNums pw (lowerStr s) = limitNums pw s := by
  intro n
  induction n with
  | zero =>
    intro s hs pw
    have hnil : s = [] := by
      cases s with
      | nil => rfl
      | cons c cs => simp at hs
    subst hnil
    rfl
  | succ n ih =>
    intro s hs pw
    cases s with
    | nil => rfl
    | cons c cs =>
      rw [lowerStr_cons]
      cases pw with
      | true =>
        rw [limitNums_cons_true, limitNums_cons_true, isWordChar_lowerChar]
        have := ih cs (by simp at hs; omega) (isWordChar c)
        rw [← this]
      | false =>
        have hml : matchLimitNum (lowerChar c :: lowerStr cs) =
            (matchLimitNum (c :: cs)).map (fun p => (p.1, lowerStr p.2)) := by
          rw [← lowerStr_cons]
          exact matchLimitNum_lower (c :: cs)
        cases hm : matchLimitNum (c :: cs) with
        | none =>
          rw [hm] at hml
          simp only [Option.map_none'] at hml
          rw [limitNums_cons_none hml, limitNums_cons_none hm, isWordChar_lowerChar]
          have := ih cs (by simp at hs; omega) (isWordChar c)
          rw [← this]
        | some nr =>
          obtain ⟨m, rest⟩ := nr
          rw [hm] at hml
          simp only [Option.map_some'] at hml
          rw [limitNums_cons_match hml, limitNums_cons_match hm]
          have hrlen := matchLimitNum_rest_lt hm
          rw [show limitNums true (lowerStr rest) = limitNums true rest from
            ih rest (by simp at hs hrlen; omega) true]

theorem limitNums_lower (s : List Char) (pw : Bool) :
    limitNums pw (lowerStr s) = limitNums pw s :=
  limitNums_lower_aux s.length s le_rfl pw

theorem firstLimitNum_eq_head :
    ∀ (s : List Char) (pw : Bool), firstLimitNum pw s = (limitNums pw s).head? := by
  intro s
  induction s with
  | nil => intro pw; rfl
  | cons c cs ih =>
    intro pw
    cases pw with
    | true =>
      rw [limitNums_cons_true]
      simp only [firstLimitNum, if_pos rfl]
      exact ih (isWordChar c)
    | false =>
      cases hm : matchLimitNum (c :: cs) with
      | none =>
        rw [limitNums_cons_none hm]
        simp only [firstLimitNum, Bool.false_eq_true, if_false, hm]
        exact ih (isWordChar c)
      | some nr =>
        obtain ⟨m, rest⟩ := nr
        rw [limitNums_cons_match hm]
        simp only [firstLimitNum, Bool.false_eq_true, if_false, hm]
        rfl

/-! ## Routing through `validate_sql` -/

theorem validate_sql_ok_inv {maxRows : Nat} {sql r : List Char}
    (h : validate_sql maxRows sql = .ok r) :
    sql ≠ [] ∧
    startsKw (pyStrip sql) = true ∧
    containsBanned (pyStrip sql) = false ∧
    singleStatement (pyStrip sql) = true ∧
    (fromClausePresent (lowerStr (pyStrip sql)) = false ∨
      containsSub martLit (lowerStr (pyStrip sql)) = true) ∧
    searchWord limitKw false (lowerStr (pyStrip sql)) = true ∧
    ((∃ lim, firstLimitNum false (lowerStr (pyStrip sql)) = some lim ∧
        maxRows < lim ∧ r = subLimit (natDigits maxRows) false (pyStrip sql)) ∨
      (r = pyStrip sql ∧
        ∀ lim, firstLimitNum false (lowerStr (pyStrip sql)) = some lim →
          lim ≤ maxRows)) := by
  simp only [validate_sql] at h
  by_cases h0 : sql.isEmpty = true
  · rw [if_pos h0] at h
    exact absurd h (by simp)
  rw [if_neg h0] at h
  have hne : sql ≠ [] := by
    intro hx
    exact h0 (by simp [hx])
  by_cases h1 : startsKw (pyStrip sql) = true
  · rw [if_neg (by simp [h1])] at h
    by_cases h2 : containsBanned (pyStrip sql) = true
    · rw [if_pos h2] at h
      exact absurd h (by simp)
    · rw [if_neg h2] at h
      by_cases h3 : singleStatement (pyStrip sql) = true
      · rw [if_neg (by simp [h3])] at h
        by_cases h4 : (fromClausePresent (lowerStr (pyStrip sql)) &&
            !containsSub martLit (lowerStr (pyStrip sql))) = true
        · rw [if_pos h4] at h
          exact absurd h (by simp)
        · rw [if_neg h4] at h
          have h4' : fromClausePresent (lowerStr (pyStrip sql)) = false ∨
              containsSub martLit (lowerStr (pyStrip sql)) = true := by
            rcases Bool.eq_false_or_eq_true
              (fromClausePresent (lowerStr (pyStrip sql))) with hf | hf
            · rcases Bool.eq_false_or_eq_true
                (containsSub martLit (lowerStr (pyStrip sql))) with hmt | hmt
              · exact Or.inr hmt
              · exact absurd (by simp [hf, hmt]) h4
            · exact Or.inl hf
          by_cases h5 : searchWord limitKw false (lowerStr (pyStrip sql)) = true
          · rw [if_neg (by simp [h5])] at h
            refine ⟨hne, h1, by simpa using h2, h3, h4', h5, ?_⟩
            cases hfl : firstLimitNum false (lowerStr (pyStrip sql)) with
            | none =>
              simp only [hfl] at h
              simp only [Except.ok.injEq] at h
              exact Or.inr ⟨h.symm, fun lim hl => absurd hl (by simp [hfl])⟩
            | some lim =>
              simp only [hfl] at h
              by_cases hlt : maxRows < lim
              · rw [if_pos hlt] at h
                simp only [Except.ok.injEq] at h
                exact Or.inl ⟨lim, rfl, hlt, h.symm⟩
              · rw [if_neg hlt] at h
                simp only [Except.ok.injEq] at h
                refine Or.inr ⟨h.symm, fun lim' hl => ?_⟩
                have hll : lim = lim' := by
                  injection hl
                omega
          · rw [if_pos (by simp [Bool.not_eq_true] at h5; simp [h5])] at h
            exact absurd h (by simp)
      · rw [if_pos (by simp [Bool.not_eq_true] at h3; simp [h3])] at h
        exact absurd h (by simp)
  · rw [if_pos (by simp [Bool.not_eq_true] at h1; simp [h1])] at h
    exact absurd h (by simp)

theorem validate_sql_ok_build {maxRows : Nat} {sql : List Char}
    (h0 : sql ≠ [])
    (h1 : startsKw (pyStrip sql) = true)
    (h2 : containsBanned (pyStrip sql) = false)
    (h3 : singleStatement (pyStrip sql) = true)
    (h4 : fromClausePresent (lowerStr (pyStrip sql)) = false ∨
      containsSub martLit (lowerStr (pyStrip sql)) = true)
    (h5 : searchWord limitKw false (lowerStr (pyStrip sql)) = true)
    (h6 : ∀ lim, firstLimitNum false (lowerStr (pyStrip sql)) = some lim →
      lim ≤ maxRows) :
    validate_sql maxRows sql = .ok (pyStrip sql) := by
  simp only [validate_sql]
  rw [if_neg (by simp [h0]), if_neg (by simp [h1]), if_neg (by simp [h2]),
    if_neg (by simp [h3])]
  have h4' : (fromClausePresent (lowerStr (pyStrip sql)) &&
      !containsSub martLit (lowerStr (pyStrip sql))) = false := by
    rcases h4 with h4 | h4 <;> simp [h4]
  rw [if_neg (by simp [h4']), if_neg (by simp [h5])]
  cases hfl : firstLimitNum false (lowerStr (pyStrip sql)) with
  | none => simp only [hfl]
  | some lim =>
    simp only [hfl]
    rw [if_neg (by have := h6 lim hfl; omega)]

/-! ## Shape of the rewritten string -/

theorem subLimit_ne_nil {d s : List Char} {pw : Bool} (h : s ≠ []) :
    subLimit d pw s ≠ [] := by
  cases s with
  | nil => exact absurd rfl h
  | cons c cs =>
    cases pw with
    | true => rw [subLimit_cons_true]; simp
    | false =>
      cases hm : matchLimitNum (c :: cs) with
      | none => rw [subLimit_cons_none d hm]; simp
      | some nr =>
        obtain ⟨n, rest⟩ := nr
        rw [subLimit_cons_match d hm]
        simp [List.append_assoc]

theorem goodKw_select : goodKw selectKw := by
  constructor
  · intro k hk
    simp only [selectKw] at hk
    fin_cases hk <;> decide
  · intro t ht
    simp only [selectKw] at ht
    fin_cases ht <;> simp <;> decide

theorem goodKw_with : goodKw withKw := by
  constructor
  · intro k hk
    simp only [withKw] at hk
    fin_cases hk <;> decide
  · intro t ht
    simp only [withKw] at ht
    fin_cases ht <;> simp <;> decide

theorem startsKw_subLimit (d : List Char) (hd : d ≠ [])
    (hdall : ∀ c ∈ d, isDigitB c = true) (s : List Char) :
    startsKw (subLimit d false s) = startsKw s := by
  unfold startsKw
  rw [kwHeadMatch_subLimit d hd hdall selectKw goodKw_select s false,
    kwHeadMatch_subLimit d hd hdall withKw goodKw_with s false]

theorem subLimit_head?_cases (d : List Char) (s : List Char) :
    (subLimit d false s).head? = s.head? ∨ (subLimit d false s).head? = some 'L' := by
  cases s with
  | nil => exact Or.inl rfl
  | cons c cs =>
    cases hm : matchLimitNum (c :: cs) with
    | none => rw [subLimit_cons_none d hm]; exact Or.inl rfl
    | some nr =>
      obtain ⟨n, rest⟩ := nr
      rw [subLimit_cons_match d hm]
      exact Or.inr rfl

theorem getLast?_append_right {l1 l2 : List Char} (h : l2 ≠ []) :
    (l1 ++ l2).getLast? = l2.getLast? := by
  rw [List.getLast?_append]
  cases hz : l2.getLast? with
  | none => exact absurd (List.getLast?_eq_none_iff.mp hz) h
  | some y => rfl

theorem getLast?_cons_ne_nil {c : Char} {l : List Char} (h : l ≠ []) :
    (c :: l).getLast? = l.getLast? := by
  have : c :: l = [c] ++ l := rfl
  rw [this, getLast?_append_right h]

theorem subLimit_getLast?_cases_aux (d : List Char) (hd : d ≠ [])
    (hdall : ∀ c ∈ d, isDigitB c = true) :
    ∀ f s pw, s.length ≤ f → s = [] ∨
      ∃ y, (subLimit d pw s).getLast? = some y ∧
        (s.getLast? = some y ∨ isDigitB y = true) := by
  intro f
  induction f with
  | zero =>
    intro s pw h1
    cases s with
    | nil => exact Or.inl rfl
    | cons c cs => simp at h1
  | succ f ih =>
    intro s pw h1
    cases s with
    | nil => exact Or.inl rfl
    | cons c cs =>
      have hcs : cs.length ≤ f := by simp at h1; omega
      by_cases hpw : pw = true
      · subst hpw
        rw [subLimit_cons_true]
        rcases ih cs (isWordChar c) hcs with hnil | ⟨y, hy, hor⟩
        · subst hnil
          exact Or.inr ⟨c, rfl, Or.inl rfl⟩
        · have hXne : subLimit d (isWordChar c) cs ≠ [] := by
            intro hx
            rw [hx] at hy
            simp at hy
          have hcsne : cs ≠ [] := by
            intro hx
            subst hx
            simp [subLimit_nil] at hy
          refine Or.inr ⟨y, ?_, ?_⟩
          · rw [getLast?_cons_ne_nil hXne]; exact hy
          · rcases hor with hor | hor
            · exact Or.inl (by rw [getLast?_cons_ne_nil hcsne]; exact hor)
            · exact Or.inr hor
      · have hpw' : pw = false := by simpa using hpw
        subst hpw'
        cases hm : matchLimitNum (c :: cs) with
        | none =>
          rw [subLimit_cons_none d hm]
          rcases ih cs (isWordChar c) hcs with hnil | ⟨y, hy, hor⟩
          · subst hnil
            exact Or.inr ⟨c, rfl, Or.inl rfl⟩
          · have hXne : subLimit d (isWordChar c) cs ≠ [] := by
              intro hx
              rw [hx] at hy
              simp at hy
            have hcsne : cs ≠ [] := by
              intro hx
              subst hx
              simp [subLimit_nil] at hy
            refine Or.inr ⟨y, ?_, ?_⟩
            · rw [getLast?_cons_ne_nil hXne]; exact hy
            · rcases hor with hor | hor
              · exact Or.inl (by rw [getLast?_cons_ne_nil hcsne]; exact hor)
              · exact Or.inr hor
        | some nr =>
          obtain ⟨n, rest⟩ := nr
          rw [subLimit_cons_match d hm]
          have hrest : rest.length ≤ f := by
            have := matchLimitNum_rest_lt hm
            simp at this
            omega
          obtain ⟨l5, sp, ds, hdecomp, _, _, _, _, _, _, _⟩ := matchLimitNum_inv hm
          rcases ih rest true hrest with hnil | ⟨y, hy, hor⟩
          · subst hnil
            rw [subLimit_nil, List.append_nil]
            cases hdl : d.getLast? with
            | none => exact absurd (List.getLast?_eq_none_iff.mp hdl) hd
            | some y =>
              refine Or.inr ⟨y, ?_, Or.inr (hdall y (mem_of_getLast?_eq_some hdl))⟩
              rw [getLast?_append_right hd]
              exact hdl
          · have hXne : subLimit d true rest ≠ [] := by
              intro hx
              rw [hx] at hy
              simp at hy
            have hrne : rest ≠ [] := by
              intro hx
              subst hx
              simp [subLimit_nil] at hy
            refine Or.inr ⟨y, ?_, ?_⟩
            · rw [List.append_assoc, getLast?_append_right
                (by simp [hXne] : d ++ subLimit d true rest ≠ []),
                getLast?_append_right hXne]
              exact hy
            · rcases hor with hor | hor
              · refine Or.inl ?_
                rw [hdecomp, List.append_assoc, List.append_assoc,
                  getLast?_append_right (by simp [hrne] : sp ++ (ds ++ rest) ≠ []),
                  getLast?_append_right (by simp [hrne] : ds ++ rest ≠ []),
                  getLast?_append_right hrne]
                exact hor
              · exact Or.inr hor

theorem pyStrip_subLimit (d : List Char) (hd : d ≠ [])
    (hdall : ∀ c ∈ d, isDigitB c = true) {s : List Char}
    (hs : pyStrip s = s) : pyStrip (subLimit d false s) = subLimit d false s := by
  apply pyStrip_eq_self
  · intro c hc
    rcases subLimit_head?_cases d s with hh | hh
    · rw [hh] at hc
      rw [← hs] at hc
      exact pyStrip_head? hc
    · rw [hh] at hc
      injection hc with hc'
      subst hc'
      decide
  · intro c hc
    rcases subLimit_getLast?_cases_aux d hd hdall s.length s false le_rfl with
      hnil | ⟨y, hy, hor⟩
    · subst hnil
      simp [subLimit_nil] at hc
    · rw [hy] at hc
      injection hc with hc'
      subst hc'
      rcases hor with hor | hor
      · rw [← hs] at hor
        exact pyStrip_getLast? hor
      · exact isDigitB_not_isPySpace hor

/-! ## The concrete patterns and keywords satisfy the scan conditions -/

theorem spanScanOk_mart : spanScanOk martLit := by
  refine ⟨by decide, by decide, by decide, by decide, by decide, by decide, ?_⟩
  show isDigitB 'm' = false ∧ _
  refine ⟨by decide, Or.inl (by decide)⟩

theorem spanScanOk_fromSpace : spanScanOk (" from ").toList := by
  refine ⟨by decide, by decide, by decide, by decide, by decide, by decide, ?_⟩
  show isDigitB ' ' = false ∧ _
  refine ⟨by decide, Or.inr ⟨by decide, by decide⟩⟩

theorem spanScanOk_fromNl : spanScanOk ("\nfrom ").toList := by
  refine ⟨by decide, by decide, by decide, by decide, by decide, by decide, ?_⟩
  show isDigitB '\n' = false ∧ _
  refine ⟨by decide, Or.inr ⟨by decide, by decide⟩⟩

theorem spanScanOk_fromTab : spanScanOk ("\tfrom ").toList := by
  refine ⟨by decide, by decide, by decide, by decide, by decide, by decide, ?_⟩
  show isDigitB '\t' = false ∧ _
  refine ⟨by decide, Or.inr ⟨by decide, by decide⟩⟩

theorem fromClausePresent_subLimit {d : List Char} (hd : d ≠ [])
    (hdall : ∀ c ∈ d, isDigitB c = true) (s : List Char) :
    fromClausePresent (lowerStr (subLimit d false s)) =
      fromClausePresent (lowerStr s) := by
  unfold fromClausePresent
  rw [containsSub_lower_subLimit hd hdall spanScanOk_fromSpace s false,
    containsSub_lower_subLimit hd hdall spanScanOk_fromNl s false,
    containsSub_lower_subLimit hd hdall spanScanOk_fromTab s false]

theorem containsSub_mart_subLimit {d : List Char} (hd : d ≠ [])
    (hdall : ∀ c ∈ d, isDigitB c = true) (s : List Char) :
    containsSub martLit (lowerStr (subLimit d false s)) =
      containsSub martLit (lowerStr s) :=
  containsSub_lower_subLimit hd hdall spanScanOk_mart s false

theorem goodKw_all_banned : ∀ kw ∈ bannedKws, goodKw kw ∧ kw ≠ [] := by
  intro kw hkw
  simp only [bannedKws] at hkw
  fin_cases hkw <;>
    exact ⟨⟨fun k hk => by fin_cases hk <;> decide,
      fun t ht => by fin_cases ht <;> simp <;> decide⟩, by decide⟩

theorem any_congr_mem {l : List (List Char)} {p q : List Char → Bool}
    (h : ∀ a ∈ l, p a = q a) : l.any p = l.any q := by
  induction l with
  | nil => rfl
  | cons a t ih =>
    simp only [List.any_cons, h a (by simp),
      ih (fun b hb => h b (by simp [hb]))]

theorem containsBanned_subLimit (d : List Char) (hd : d ≠ [])
    (hdall : ∀ c ∈ d, isDigitB c = true) (s : List Char) :
    containsBanned (subLimit d false s) = containsBanned s := by
  unfold containsBanned
  apply any_congr_mem
  intro kw hkw
  obtain ⟨hg, hne⟩ := goodKw_all_banned kw hkw
  exact searchWord_subLimit d hd hdall hg hne s false

/-! ## Lowercasing invariance of the word search, and the `limit` keyword -/

theorem kwHeadMatch_lower (kw s : List Char) :
    kwHeadMatch kw (lowerStr s) = kwHeadMatch kw s := by
  unfold kwHeadMatch
  rw [stripPrefixLower_lower]
  cases hs : stripPrefixLower kw s with
  | none => rfl
  | some r =>
    simp only [Option.map_some']
    exact boundaryOk_lower r

theorem searchWord_lower (kw : List Char) : ∀ (s : List Char) (pw : Bool),
    searchWord kw pw (lowerStr s) = searchWord kw pw s := by
  intro s
  induction s with
  | nil => intro pw; rfl
  | cons c cs ih =>
    intro pw
    rw [lowerStr_cons, searchWord_cons, searchWord_cons, isWordChar_lowerChar,
      ih (isWordChar c)]
    have hw : wordMatchAt kw pw (lowerChar c :: lowerStr cs) =
        wordMatchAt kw pw (c :: cs) := by
      unfold wordMatchAt
      rw [← lowerStr_cons, kwHeadMatch_lower]
    rw [hw]

theorem searchWord_limit_of_limitNums : ∀ (s : List Char) (pw : Bool),
    limitNums pw s ≠ [] → searchWord limitKw pw s = true := by
  intro s
  induction s with
  | nil =>
    intro pw h
    exact absurd rfl h
  | cons c cs ih =>
    intro pw h
    rw [searchWord_cons]
    cases pw with
    | true =>
      rw [limitNums_cons_true] at h
      rw [wordMatchAt_true]
      simp only [Bool.false_or]
      exact ih (isWordChar c) h
    | false =>
      cases hm : matchLimitNum (c :: cs) with
      | none =>
        rw [limitNums_cons_none hm] at h
        rw [Bool.or_eq_true]
        exact Or.inr (ih (isWordChar c) h)
      | some nr =>
        obtain ⟨n, rest⟩ := nr
        obtain ⟨l5, sp, ds, hdecomp, hl5, hsp, hspAll, _, _, _, _⟩ :=
          matchLimitNum_inv hm
        rw [Bool.or_eq_true]
        refine Or.inl ?_
        unfold wordMatchAt
        rw [Bool.not_false, Bool.true_and]
        unfold kwHeadMatch
        rw [hdecomp]
        simp only [List.append_assoc]
        rw [stripPrefixLower_build _ hl5]
        cases sp with
        | nil => exact absurd rfl hsp
        | cons x xt =>
          simp only [List.cons_append, boundaryOk]
          rw [not_isWordChar_of_isPySpace (hspAll x (by simp))]
          rfl

/-! ## Whitespace stripping does not change whole-word keyword search -/

theorem searchWord_space_only {kw : List Char} {k1 : Char} {kt : List Char}
    (hkw : kw = k1 :: kt) (hk1 : isAsciiLowerB k1 = true) :
    ∀ (v : List Char), (∀ c ∈ v, isPySpace c = true) → ∀ pw,
      searchWord kw pw v = false := by
  intro v
  induction v with
  | nil => intro _ pw; rfl
  | cons x v' ih =>
    intro hv pw
    have hx : isPySpace x = true := hv x (by simp)
    rw [searchWord_cons]
    have hw : wordMatchAt kw pw (x :: v') = false := by
      unfold wordMatchAt
      rw [hkw, kwHeadMatch_cons, if_neg (lowerChar_space_ne_letter hx hk1)]
      simp
    rw [hw, ih (fun c hc => hv c (by simp [hc])) (isWordChar x)]
    rfl

theorem searchWord_space_prefix_drop {kw : List Char} {k1 : Char} {kt : List Char}
    (hkw : kw = k1 :: kt) (hk1 : isAsciiLowerB k1 = true) :
    ∀ (u t : List Char), (∀ c ∈ u, isPySpace c = true) →
      searchWord kw false (u ++ t) = searchWord kw false t := by
  intro u
  induction u with
  | nil => intro t _; rfl
  | cons x u' ih =>
    intro t hu
    have hx : isPySpace x = true := hu x (by simp)
    rw [List.cons_append, searchWord_cons]
    have hw : wordMatchAt kw false (x :: (u' ++ t)) = false := by
      unfold wordMatchAt
      rw [hkw, kwHeadMatch_cons, if_neg (lowerChar_space_ne_letter hx hk1)]
      simp
    rw [hw, not_isWordChar_of_isPySpace hx]
    simp only [Bool.false_or]
    exact ih t (fun c hc => hu c (by simp [hc]))

theorem stripPrefixLower_none_append {kw : List Char} :
    ∀ (t v : List Char), stripPrefixLower kw t = none →
      (∀ c ∈ v, isPySpace c = true) →
      (∀ k ∈ kw, isAsciiLowerB k = true) →
      stripPrefixLower kw (t ++ v) = none := by
  induction kw with
  | nil => intro t v h _ _; simp [stripPrefixLower] at h
  | cons k ks ih =>
    intro t v h hv hk
    cases t with
    | nil =>
      cases v with
      | nil => rfl
      | cons x xs =>
        simp only [List.nil_append, stripPrefixLower]
        rw [if_neg (lowerChar_space_ne_letter (hv x (by simp)) (hk k (by simp)))]
    | cons c cs =>
      simp only [stripPrefixLower] at h
      by_cases hc : lowerChar c = k
      · rw [if_pos hc] at h
        simp only [List.cons_append, stripPrefixLower, if_pos hc]
        exact ih cs v h (by intro a ha; exact hv a ha) (fun a ha => hk a (by simp [ha]))
      · simp only [List.cons_append, stripPrefixLower, if_neg hc]

theorem kwHeadMatch_space_append {kw : List Char} (hne : kw ≠ [])
    (hk : ∀ k ∈ kw, isAsciiLowerB k = true) (t v : List Char)
    (hv : ∀ c ∈ v, isPySpace c = true) :
    kwHeadMatch kw (t ++ v) = kwHeadMatch kw t := by
  unfold kwHeadMatch
  cases hs : stripPrefixLower kw t with
  | none => rw [stripPrefixLower_none_append t v hs hv hk]
  | some r =>
    obtain ⟨pre, hpre, hlow⟩ := stripPrefixLower_inv hs
    have hb : stripPrefixLower kw (t ++ v) = some (r ++ v) := by
      rw [hpre, List.append_assoc]
      exact stripPrefixLower_build _ hlow
    rw [hb]
    cases r with
    | nil =>
      simp only [List.nil_append, boundaryOk]
      cases v with
      | nil => rfl
      | cons x xs =>
        simp only [boundaryOk]
        rw [not_isWordChar_of_isPySpace (hv x (by simp))]
        rfl
    | cons y ys => rfl

theorem searchWord_space_suffix_drop {kw : List Char} {k1 : Char} {kt : List Char}
    (hkw : kw = k1 :: kt) (hk : ∀ k ∈ kw, isAsciiLowerB k = true) :
    ∀ (t v : List Char), (∀ c ∈ v, isPySpace c = true) → ∀ pw,
      searchWord kw pw (t ++ v) = searchWord kw pw t := by
  intro t
  induction t with
  | nil =>
    intro v hv pw
    rw [List.nil_append]
    exact searchWord_space_only hkw (hk k1 (by simp [hkw])) v hv pw
  | cons c cs ih =>
    intro v hv pw
    rw [List.cons_append, searchWord_cons, searchWord_cons, ih v hv (isWordChar c)]
    have hw : wordMatchAt kw pw (c :: (cs ++ v)) = wordMatchAt kw pw (c :: cs) := by
      unfold wordMatchAt
      rw [show c :: (cs ++ v) = (c :: cs) ++ v from rfl,
        kwHeadMatch_space_append (by simp [hkw]) hk (c :: cs) v hv]
    rw [hw]

theorem containsBanned_pyStrip (sql : List Char) :
    containsBanned (pyStrip sql) = containsBanned sql := by
  obtain ⟨u, v, hs, hu, hv⟩ := pyStrip_decomp sql
  conv_rhs => rw [hs]
  unfold containsBanned
  apply any_congr_mem
  intro kw hkw
  obtain ⟨⟨hlow, _⟩, hne⟩ := goodKw_all_banned kw hkw
  obtain ⟨k1, kt, hkw1⟩ : ∃ k1 kt, kw = k1 :: kt := by
    cases kw with
    | nil => exact absurd rfl hne
    | cons a b => exact ⟨a, b, rfl⟩
  rw [List.append_assoc,
    searchWord_space_prefix_drop hkw1 (hlow k1 (by simp [hkw1])) u _ hu,
    searchWord_space_suffix_drop hkw1 hlow (pyStrip sql) v hv false]

/-! ## Remaining small helpers -/

theorem kwHeadMatch_isSome {kw s : List Char} (h : kwHeadMatch kw s = true) :
    (stripPrefixLower kw s).isSome = true := by
  unfold kwHeadMatch at h
  cases hs : stripPrefixLower kw s with
  | none => rw [hs] at h; exact absurd h (by simp)
  | some r => rfl

theorem startsSelectOrWith_of_startsKw {s : List Char} (h : startsKw s = true) :
    startsSelectOrWith s = true := by
  unfold startsKw at h
  unfold startsSelectOrWith
  rw [Bool.or_eq_true] at h ⊢
  rcases h with h | h
  · exact Or.inl (kwHeadMatch_isSome h)
  · exact Or.inr (kwHeadMatch_isSome h)

theorem startsKw_ne_nil {s : List Char} (h : startsKw s = true) : s ≠ [] := by
  intro hx
  subst hx
  exact absurd h (by decide)

theorem singleStatement_pyStrip (t : List Char) :
    singleStatement (pyStrip t) = singleStatement t := by
  rw [singleStatement_eq_segCount, singleStatement_eq_segCount, pyStrip_idem]

theorem dropToBrace_inv {t u : List Char} (h : dropToBrace t = some u) :
    ∃ a, t = a ++ u ∧ ('\x7b' ∉ a) ∧ headIs '\x7b' u = true := by
  induction t with
  | nil => simp [dropToBrace] at h
  | cons c cs ih =>
    by_cases hc : c = '\x7b'
    · subst hc
      simp only [dropToBrace, eq_self_iff_true, if_true, Option.some.injEq] at h
      subst h
      exact ⟨[], rfl, by simp, by simp [headIs]⟩
    · simp only [dropToBrace, if_neg hc] at h
      obtain ⟨a, ha, hna, hh⟩ := ih h
      exact ⟨c :: a, by rw [ha]; rfl, by simp [hna, Ne.symm hc, hc], hh⟩

theorem dropToCloseRev_inv {t u : List Char} (h : dropToCloseRev t = some u) :
    ∃ a, t = a ++ u ∧ ('\x7d' ∉ a) ∧ headIs '\x7d' u = true := by
  induction t with
  | nil => simp [dropToCloseRev] at h
  | cons c cs ih =>
    by_cases hc : c = '\x7d'
    · subst hc
      simp only [dropToCloseRev, eq_self_iff_true, if_true, Option.some.injEq] at h
      subst h
      exact ⟨[], rfl, by simp, by simp [headIs]⟩
    · simp only [dropToCloseRev, if_neg hc] at h
      obtain ⟨a, ha, hna, hh⟩ := ih h
      exact ⟨c :: a, by rw [ha]; rfl, by simp [hna, Ne.symm hc, hc], hh⟩

theorem headIs_ne_nil {c : Char} {s : List Char} (h : headIs c s = true) : s ≠ [] := by
  cases s with
  | nil => exact absurd h (by simp [headIs])
  | cons x xs => simp

theorem lastIs_reverse_of_headIs {c : Char} {s : List Char}
    (h : headIs c s = true) : lastIs c s.reverse = true := by
  cases s with
  | nil => exact absurd h (by simp [headIs])
  | cons x xs =>
    simp only [headIs, decide_eq_true_eq] at h
    unfold lastIs
    rw [List.getLast?_reverse]
    simp [h]

theorem headIs_append_left {c : Char} {s t : List Char} (h : s ≠ []) :
    headIs c (s ++ t) = headIs c s := by
  cases s with
  | nil => exact absurd rfl h
  | cons x xs => rfl

theorem braceSpan_some_inv {t m : List Char} (h : braceSpan t = some m) :
    ∃ a b, t = a ++ m ++ b ∧ ('\x7b' ∉ a) ∧
      headIs '\x7b' m = true ∧ lastIs '\x7d' m = true ∧ ('\x7d' ∉ b) := by
  unfold braceSpan at h
  cases hu : dropToBrace t with
  | none => rw [hu] at h; exact absurd h (by simp)
  | some u =>
    rw [hu] at h
    simp only at h
    cases hv : dropToCloseRev u.reverse with
    | none => rw [hv] at h; exact absurd h (by simp)
    | some v =>
      rw [hv] at h
      simp only [Option.some.injEq] at h
      subst h
      obtain ⟨a, ha, hna, hhu⟩ := dropToBrace_inv hu
      obtain ⟨b', hb', hnb', hhv⟩ := dropToCloseRev_inv hv
      have hueq : u = v.reverse ++ b'.reverse := by
        have := congrArg List.reverse hb'
        simpa [List.reverse_append] using this
      have hvne : v ≠ [] := headIs_ne_nil hhv
      have hrevne : v.reverse ≠ [] := fun hx => hvne (by simpa using hx)
      refine ⟨a, b'.reverse, ?_, hna, ?_, ?_, ?_⟩
      · rw [ha, hueq, List.append_assoc]
      · rw [hueq] at hhu
        rw [← @headIs_append_left '\x7b' v.reverse b'.reverse hrevne]
        exact hhu
      · exact lastIs_reverse_of_headIs hhv
      · intro hc
        exact hnb' (List.mem_reverse.mp hc)

/-! ## Structure of `to_jsonable` on containers, and idempotence -/

theorem to_jsonable_kvs_eq_map {D F T : Type} (f : D → F) (g : T → List Char) :
    ∀ kvs : List (List Char × PVal D F T),
      to_jsonable_kvs f g kvs = kvs.map (fun kv => (kv.1, to_jsonable f g kv.2)) := by
  intro kvs
  induction kvs with
  | nil => rfl
  | cons kv rest ih =>
    obtain ⟨k, v⟩ := kv
    simp only [to_jsonable_kvs, List.map_cons, ih]

theorem to_jsonable_seq_eq_map {D F T : Type} (f : D → F) (g : T → List Char) :
    ∀ xs : List (PVal D F T),
      to_jsonable_seq f g xs = xs.map (to_jsonable f g) := by
  intro xs
  induction xs with
  | nil => rfl
  | cons v rest ih =>
    simp only [to_jsonable_seq, List.map_cons, ih]

mutual

theorem to_jsonable_idem {D F T : Type} (f : D → F) (g : T → List Char) :
    ∀ x : PVal D F T, to_jsonable f g (to_jsonable f g x) = to_jsonable f g x
  | .vdec _ => rfl
  | .vdt _ => rfl
  | .vfloat _ => rfl
  | .vstr _ => rfl
  | .vint _ => rfl
  | .vbool _ => rfl
  | .vnone => rfl
  | .vdict kvs => by
    simp only [to_jsonable]
    rw [to_jsonable_kvs_idem f g kvs]
  | .vlist xs => by
    simp only [to_jsonable]
    rw [to_jsonable_seq_idem f g xs]
  | .vtuple xs => by
    simp only [to_jsonable]
    rw [to_jsonable_seq_idem f g xs]

theorem to_jsonable_kvs_idem {D F T : Type} (f : D → F) (g : T → List Char) :
    ∀ kvs : List (List Char × PVal D F T),
      to_jsonable_kvs f g (to_jsonable_kvs f g kvs) = to_jsonable_kvs f g kvs
  | [] => rfl
  | (k, v) :: rest => by
    simp only [to_jsonable_kvs]
    rw [to_jsonable_idem f g v, to_jsonable_kvs_idem f g rest]

theorem to_jsonable_seq_idem {D F T : Type} (f : D → F) (g : T → List Char) :
    ∀ xs : List (PVal D F T),
      to_jsonable_seq f g (to_jsonable_seq f g xs) = to_jsonable_seq f g xs
  | [] => rfl
  | v :: rest => by
    simp only [to_jsonable_seq]
    rw [to_jsonable_idem f g v, to_jsonable_seq_idem f g rest]

end

/-! ## The claims -/

/-- Claim C1, corrected.  When the validator accepts and the first
`LIMIT <integer>` clause exceeds the row cap, the result is the stripped
input with EVERY occurrence of `limit <digits>` rewritten (not only the
first): all the limit numbers of the result equal the cap. -/
theorem C1_limit_rewrite_all_occurrences (maxRows : Nat) (sql r : List Char)
    (h : validate_sql maxRows sql = .ok r) (lim : Nat)
    (hfl : firstLimitNum false (lowerStr (pyStrip sql)) = some lim)
    (hgt : maxRows < lim) :
    r = subLimit (natDigits maxRows) false (pyStrip sql) ∧
    limitNums false r =
      (limitNums false (pyStrip sql)).map (fun _ => maxRows) := by
  obtain ⟨-, -, -, -, -, -, hcase⟩ := validate_sql_ok_inv h
  rcases hcase with ⟨lim', hfl', hlt', hr⟩ | ⟨hr, hbound⟩
  · subst hr
    refine ⟨rfl, ?_⟩
    rw [limitNums_subLimit (natDigits maxRows) (natDigits_ne_nil maxRows)
      (natDigits_all_digits maxRows) false (pyStrip sql)]
    simp only [digitsVal_natDigits]
  · exact absurd hgt (by have := hbound lim hfl; omega)

/-- Claim C1's counterexample to the frozen wording: with a cap of 2000,
an accepted query holding two over-cap limit clauses comes back with BOTH
rewritten, not the first occurrence only. -/
theorem C1_counterexample :
    validate_sql 2000
      (("select * from mart.a where x in (select y from mart.b limit 5000) limit 6000").toList) =
      .ok (("select * from mart.a where x in (select y from mart.b LIMIT 2000) LIMIT 2000").toList) ∧
    validate_sql 2000
      (("select * from mart.a where x in (select y from mart.b limit 5000) limit 6000").toList) ≠
      .ok (("select * from mart.a where x in (select y from mart.b LIMIT 2000) limit 6000").toList) := by
  constructor
  · decide
  · decide

/-- Claim C1's witness: the spec's own example, `LIMIT 100000` capped to
`LIMIT 2000`. -/
theorem C1_limit_rewrite_all_occurrences_witness :
    ("SELECT * FROM mart.fact_listings LIMIT 2000").toList =
      subLimit (natDigits 2000) false
        (pyStrip (("SELECT * FROM mart.fact_listings LIMIT 100000").toList)) ∧
    limitNums false (("SELECT * FROM mart.fact_listings LIMIT 2000").toList) =
      (limitNums false
        (pyStrip (("SELECT * FROM mart.fact_listings LIMIT 100000").toList))).map
        (fun _ => 2000) :=
  C1_limit_rewrite_all_occurrences 2000
    (("SELECT * FROM mart.fact_listings LIMIT 100000").toList)
    (("SELECT * FROM mart.fact_listings LIMIT 2000").toList)
    (by decide) 100000 (by decide) (by decide)

/-- Claim C2, corrected.  Every accepted result is already stripped,
starts with SELECT or WITH (case-insensitively), is a single statement,
holds no banned keyword, holds the whole word `limit`; and either every
`limit <digits>` clause of the result carries exactly the cap value (the
rewrite case), or the result is the stripped input unchanged and its
FIRST limit number — not necessarily the later ones — is at most the
cap. -/
theorem C2_result_invariants (maxRows : Nat) (sql r : List Char)
    (h : validate_sql maxRows sql = .ok r) :
    pyStrip r = r ∧
    startsSelectOrWith r = true ∧
    singleStatement r = true ∧
    containsBanned r = false ∧
    searchWord limitKw false (lowerStr r) = true ∧
    ((∀ n ∈ limitNums false (lowerStr r), n = maxRows) ∨
      (r = pyStrip sql ∧
        ∀ n, (limitNums false (lowerStr r)).head? = some n → n ≤ maxRows)) := by
  obtain ⟨hne, h1, h2, h3, h4, h5, hcase⟩ := validate_sql_ok_inv h
  have hs : pyStrip (pyStrip sql) = pyStrip sql := pyStrip_idem sql
  have hd : natDigits maxRows ≠ [] := natDigits_ne_nil maxRows
  have hdall : ∀ c ∈ natDigits maxRows, isDigitB c = true := natDigits_all_digits maxRows
  rcases hcase with ⟨lim, hfl, hlt, hr⟩ | ⟨hr, hbound⟩
  · subst hr
    have hstrip : pyStrip (subLimit (natDigits maxRows) false (pyStrip sql)) =
        subLimit (natDigits maxRows) false (pyStrip sql) :=
      pyStrip_subLimit (natDigits maxRows) hd hdall hs
    refine ⟨hstrip, ?_, ?_, ?_, ?_, ?_⟩
    · apply startsSelectOrWith_of_startsKw
      rw [startsKw_subLimit (natDigits maxRows) hd hdall (pyStrip sql)]
      exact h1
    · rw [singleStatement_eq_segCount, hstrip,
        segCount_subLimit (natDigits maxRows) hd hdall (pyStrip sql) false false]
      rw [singleStatement_eq_segCount, hs] at h3
      exact h3
    · rw [containsBanned_subLimit (natDigits maxRows) hd hdall (pyStrip sql)]
      exact h2
    · rw [searchWord_lower]
      apply searchWord_limit_of_limitNums
      rw [limitNums_subLimit (natDigits maxRows) hd hdall false (pyStrip sql)]
      have hnn : limitNums false (pyStrip sql) ≠ [] := by
        rw [← limitNums_lower]
        intro hx
        rw [firstLimitNum_eq_head, hx] at hfl
        simp at hfl
      simp [hnn]
    · refine Or.inl ?_
      intro n hn
      rw [limitNums_lower,
        limitNums_subLimit (natDigits maxRows) hd hdall false (pyStrip sql)] at hn
      simp only [List.mem_map] at hn
      obtain ⟨m, -, hm⟩ := hn
      rw [← hm, digitsVal_natDigits]
  · subst hr
    refine ⟨hs, startsSelectOrWith_of_startsKw h1, h3, h2, h5, Or.inr ⟨rfl, ?_⟩⟩
    intro n hn
    rw [← firstLimitNum_eq_head] at hn
    exact hbound n hn

/-- Claim C2's counterexample to the frozen wording: the input's FIRST
limit clause (10) is within the cap, so the validator accepts the string
unchanged even though its second limit clause carries 999999, far above
the cap of 2000 — not every `LIMIT <integer>` clause of the result is at
most the cap. -/
theorem C2_counterexample :
    validate_sql 2000
      (("select * from mart.t where x in (select y from mart.u limit 10) limit 999999").toList) =
      .ok (("select * from mart.t where x in (select y from mart.u limit 10) limit 999999").toList) ∧
    limitNums false
      (lowerStr (("select * from mart.t where x in (select y from mart.u limit 10) limit 999999").toList)) =
      [10, 999999] ∧
    2000 < 999999 := by
  refine ⟨by decide, by decide, by decide⟩

/-- Claim C2's witness at the spec's example, cap 2000. -/
theorem C2_result_invariants_witness :
    pyStrip (("SELECT * FROM mart.fact_listings LIMIT 2000").toList) =
      ("SELECT * FROM mart.fact_listings LIMIT 2000").toList ∧
    startsSelectOrWith (("SELECT * FROM mart.fact_listings LIMIT 2000").toList) = true ∧
    singleStatement (("SELECT * FROM mart.fact_listings LIMIT 2000").toList) = true ∧
    containsBanned (("SELECT * FROM mart.fact_listings LIMIT 2000").toList) = false ∧
    searchWord limitKw false
      (lowerStr (("SELECT * FROM mart.fact_listings LIMIT 2000").toList)) = true ∧
    ((∀ n ∈ limitNums false
        (lowerStr (("SELECT * FROM mart.fact_listings LIMIT 2000").toList)), n = 2000) ∨
      (("SELECT * FROM mart.fact_listings LIMIT 2000").toList =
          pyStrip (("SELECT * FROM mart.fact_listings LIMIT 100000").toList) ∧
        ∀ n, (limitNums false
          (lowerStr (("SELECT * FROM mart.fact_listings LIMIT 2000").toList))).head? =
            some n → n ≤ 2000)) :=
  C2_result_invariants 2000
    (("SELECT * FROM mart.fact_listings LIMIT 100000").toList)
    (("SELECT * FROM mart.fact_listings LIMIT 2000").toList)
    (by decide)

/-- Claim C3, corrected.  A candidate string holding a banned keyword as
a whole word is always rejected with some error; but the example
`SELECT 1; DROP TABLE x` is rejected via ForbiddenKeyword, not via
MultipleStatements, because the banned-keyword check runs BEFORE the
single-statement check in the validator's fixed order. -/
theorem C3_banned_keyword_rejected (maxRows : Nat) (sql : List Char)
    (hb : containsBanned sql = true) :
    (∃ e, validate_sql maxRows sql = .error e) ∧
    validate_sql maxRows (("SELECT 1; DROP TABLE x").toList) =
      .error .forbiddenKeyword := by
  constructor
  · cases hv : validate_sql maxRows sql with
    | error e => exact ⟨e, rfl⟩
    | ok r =>
      obtain ⟨-, -, h2, -⟩ := validate_sql_ok_inv hv
      rw [containsBanned_pyStrip, hb] at h2
      exact absurd h2 (by simp)
  · rfl

/-- Claim C3's counterexample to the frozen wording: the example input is
rejected with ForbiddenKeyword, which is a different error than the
claimed MultipleStatements. -/
theorem C3_counterexample :
    validate_sql 2000 (("SELECT 1; DROP TABLE x").toList) =
      .error .forbiddenKeyword ∧
    VErr.forbiddenKeyword ≠ VErr.multipleStatements := by
  refine ⟨by decide, by decide⟩

/-- Claim C3's witness at `DROP TABLE x` with cap 7. -/
theorem C3_banned_keyword_rejected_witness :
    (∃ e, validate_sql 7 (("DROP TABLE x").toList) = .error e) ∧
    validate_sql 7 (("SELECT 1; DROP TABLE x").toList) =
      .error .forbiddenKeyword :=
  C3_banned_keyword_rejected 7 (("DROP TABLE x").toList) (by decide)

/-- Claim C4, corrected.  The schema heuristic fires on the literal
substrings `" from "`, `"\nfrom "`, `"\tfrom "` of the lowered stripped
text (the token must be FOLLOWED by a space and preceded by exactly a
space, newline or tab — not by start-of-text or other whitespace): when
one is present and `mart.` is absent the validator always rejects, with
SchemaNotAllowed as soon as the earlier checks pass; the spec's example
is rejected with SchemaNotAllowed. -/
theorem C4_schema_heuristic (maxRows : Nat) (sql : List Char)
    (hf : fromClausePresent (lowerStr (pyStrip sql)) = true)
    (hm : containsSub martLit (lowerStr (pyStrip sql)) = false) :
    (∃ e, validate_sql maxRows sql = .error e) ∧
    (sql ≠ [] → startsKw (pyStrip sql) = true →
      containsBanned (pyStrip sql) = false →
      singleStatement (pyStrip sql) = true →
      validate_sql maxRows sql = .error .schemaNotAllowed) ∧
    validate_sql maxRows (("SELECT * FROM raw.some_table LIMIT 10").toList) =
      .error .schemaNotAllowed := by
  refine ⟨?_, ?_, rfl⟩
  · cases hv : validate_sql maxRows sql with
    | error e => exact ⟨e, rfl⟩
    | ok r =>
      obtain ⟨-, -, -, -, h4, -⟩ := validate_sql_ok_inv hv
      rcases h4 with h4 | h4
      · rw [hf] at h4
        exact absurd h4 (by simp)
      · rw [hm] at h4
        exact absurd h4 (by simp)
  · intro h0 h1 h2 h3
    simp only [validate_sql]
    rw [if_neg (by simp [h0]), if_neg (by simp [h1]), if_neg (by simp [h2]),
      if_neg (by simp [h3]), if_pos (by simp [hf, hm])]

/-- Claim C4's counterexample to the frozen wording: the text
`select a from` + newline + `raw.t limit 1` holds the token `from`
preceded by whitespace (as `specFromToken` — the claim's matcher —
confirms) and holds no `mart.`, yet the validator ACCEPTS it, because
the token is followed by a newline rather than the space the code's
substring test demands. -/
theorem C4_counterexample :
    specFromToken true
      (lowerStr (pyStrip (("select a from\nraw.t limit 1").toList))) = true ∧
    containsSub martLit
      (lowerStr (pyStrip (("select a from\nraw.t limit 1").toList))) = false ∧
    validate_sql 2000 (("select a from\nraw.t limit 1").toList) =
      .ok (("select a from\nraw.t limit 1").toList) := by
  refine ⟨by decide, by decide, by decide⟩

/-- Claim C4's witness at a query whose `from` is enclosed in spaces. -/
theorem C4_schema_heuristic_witness :
    (∃ e, validate_sql 50 (("select x from raw.t limit 5").toList) = .error e) ∧
    ((("select x from raw.t limit 5").toList) ≠ [] →
      startsKw (pyStrip (("select x from raw.t limit 5").toList)) = true →
      containsBanned (pyStrip (("select x from raw.t limit 5").toList)) = false →
      singleStatement (pyStrip (("select x from raw.t limit 5").toList)) = true →
      validate_sql 50 (("select x from raw.t limit 5").toList) =
        .error .schemaNotAllowed) ∧
    validate_sql 50 (("SELECT * FROM raw.some_table LIMIT 10").toList) =
      .error .schemaNotAllowed :=
  C4_schema_heuristic 50 (("select x from raw.t limit 5").toList)
    (by decide) (by decide)

/-- Claim C5, corrected.  A candidate whose stripped text does not start
with SELECT or WITH is rejected — but the empty string draws the
EmptyOutput error from the earlier emptiness check, and only a NONEMPTY
such candidate draws NotAReadQuery. -/
theorem C5_not_read_query (maxRows : Nat) (sql : List Char)
    (h : startsKw (pyStrip sql) = false) :
    validate_sql maxRows sql =
      if sql.isEmpty then .error .emptyOutput else .error .notAReadQuery := by
  simp only [validate_sql]
  by_cases h0 : sql.isEmpty = true
  · rw [if_pos h0, if_pos h0]
  · rw [if_neg h0, if_neg h0, if_pos (by simp [h])]

/-- Claim C5's counterexample to the frozen wording: the empty string is
rejected with EmptyOutput, not with the claimed NotAReadQuery. -/
theorem C5_counterexample :
    validate_sql 2000 ([] : List Char) = .error .emptyOutput ∧
    VErr.emptyOutput ≠ VErr.notAReadQuery := by
  refine ⟨by decide, by decide⟩

/-- Claim C5's witness at a nonempty non-SELECT input. -/
theorem C5_not_read_query_witness :
    validate_sql 3 (("update t set x = 1").toList) =
      if (("update t set x = 1").toList).isEmpty then .error .emptyOutput
      else .error .notAReadQuery :=
  C5_not_read_query 3 (("update t set x = 1").toList) (by decide)

/-- Claim C6, confirmed.  The extraction step returns the trimmed text
verbatim when it already starts with an opening and ends with a closing
brace; otherwise, when the DOTALL search matches, the candidate is the
span from the FIRST opening brace (no opening brace precedes it) through
the LAST closing brace (no closing brace follows it); and when the
parser fails on the candidate, the bridge fails with the unparseable
error carrying the candidate truncated to at most 300 characters. -/
theorem C6_extract_json_policy {J : Type} (parse : List Char → Option J)
    (response : List Char) :
    ((headIs '\x7b' (pyStrip response) && lastIs '\x7d' (pyStrip response)) = true →
      extract_json response = pyStrip response) ∧
    (∀ m,
      (headIs '\x7b' (pyStrip response) && lastIs '\x7d' (pyStrip response)) = false →
      braceSpan (pyStrip response) = some m →
      extract_json response = m ∧
      ∃ a b, pyStrip response = a ++ m ++ b ∧ ('\x7b' ∉ a) ∧
        headIs '\x7b' m = true ∧ lastIs '\x7d' m = true ∧ ('\x7d' ∉ b)) ∧
    (parse (extract_json response) = none →
      ollama_json_tail parse response =
        .error (.modelOutputUnparseable ((extract_json response).take 300)) ∧
      ((extract_json response).take 300).length ≤ 300) := by
  refine ⟨?_, ?_, ?_⟩
  · intro hc
    simp only [extract_json, hc, if_true]
  · intro m hc hspan
    constructor
    · simp only [extract_json, hc, Bool.false_eq_true, if_false, hspan]
    · exact braceSpan_some_inv hspan
  · intro hp
    constructor
    · simp only [ollama_json_tail, hp]
    · rw [List.length_take]
      exact min_le_left _ _

/-- Claim C6's witness: on `x{a}b}c` (braces shown as words) the span
runs from the first opening to the last closing brace, and a failing
parser yields the unparseable error carrying that candidate. -/
theorem C6_extract_json_policy_witness :
    extract_json (("x\x7ba\x7db\x7dc").toList) = ("\x7ba\x7db\x7d").toList ∧
    ollama_json_tail (fun _ => (none : Option Unit)) (("x\x7ba\x7db\x7dc").toList) =
      .error (.modelOutputUnparseable (("\x7ba\x7db\x7d").toList)) := by
  have h := C6_extract_json_policy (fun _ => (none : Option Unit))
    (("x\x7ba\x7db\x7dc").toList)
  obtain ⟨-, h2, h3⟩ := h
  obtain ⟨he, -⟩ := h2 (("\x7ba\x7db\x7d").toList) (by decide) (by decide)
  refine ⟨he, ?_⟩
  obtain ⟨herr, -⟩ := h3 rfl
  rw [he] at herr
  rw [herr]
  decide

/-- Claim C7, confirmed.  The coercion maps Decimals to floats, temporal
values to their ISO strings, converts dicts, lists and tuples
element-wise (a tuple comes back as a list, structure and keys
preserved), leaves every other value unchanged, and is idempotent. -/
theorem C7_to_jsonable_coercion (D F T : Type) (f : D → F) (g : T → List Char) :
    (∀ x, to_jsonable f g (.vdec x) = .vfloat (f x)) ∧
    (∀ x, to_jsonable f g (.vdt x) = .vstr (g x)) ∧
    (∀ kvs : List (List Char × PVal D F T), to_jsonable f g (.vdict kvs) =
      .vdict (kvs.map (fun kv => (kv.1, to_jsonable f g kv.2)))) ∧
    (∀ xs : List (PVal D F T), to_jsonable f g (.vlist xs) =
      .vlist (xs.map (to_jsonable f g))) ∧
    (∀ xs : List (PVal D F T), to_jsonable f g (.vtuple xs) =
      .vlist (xs.map (to_jsonable f g))) ∧
    (∀ x, to_jsonable f g (.vfloat x) = .vfloat x) ∧
    (∀ s, to_jsonable f g (.vstr s) = .vstr s) ∧
    (∀ n, to_jsonable f g (.vint n) = .vint n) ∧
    (∀ b, to_jsonable f g (.vbool b) = .vbool b) ∧
    (to_jsonable f g (.vnone : PVal D F T) = .vnone) ∧
    (∀ x : PVal D F T, to_jsonable f g (to_jsonable f g x) = to_jsonable f g x) := by
  refine ⟨fun x => rfl, fun x => rfl, ?_, ?_, ?_, fun x => rfl, fun s => rfl,
    fun n => rfl, fun b => rfl, rfl, to_jsonable_idem f g⟩
  · intro kvs
    simp only [to_jsonable, to_jsonable_kvs_eq_map]
  · intro xs
    simp only [to_jsonable, to_jsonable_seq_eq_map]
  · intro xs
    simp only [to_jsonable, to_jsonable_seq_eq_map]

/-- Claim C8, confirmed.  The summarizer yields row count 0 and an empty
null map on no rows; otherwise the row count is the number of rows and,
for each column of the first row, the reported pair carries the number
of rows whose value at that column is null. -/
theorem C8_summarize_rows (V : Type) (rows : List (List (List Char × Option V))) :
    (rows = [] → summarize_rows rows = (0, [])) ∧
    (summarize_rows rows).1 = rows.length ∧
    (∀ r0 rest, rows = r0 :: rest →
      (summarize_rows rows).2.map Prod.fst = r0.map Prod.fst ∧
      ∀ c ∈ r0.map Prod.fst,
        (c, (rows.filter (fun r => isNullAt r c)).length) ∈
          (summarize_rows rows).2) := by
  refine ⟨?_, ?_, ?_⟩
  · intro h
    subst h
    rfl
  · cases rows with
    | nil => rfl
    | cons r0 rest => rfl
  · intro r0 rest hr
    subst hr
    constructor
    · simp only [summarize_rows, List.map_map]
      have hcomp : (Prod.fst ∘ (fun c => (c, (r0 :: rest).countP (fun r => isNullAt r c))) ∘
          (Prod.fst : List Char × Option V → List Char)) = Prod.fst := rfl
      rw [hcomp]
    · intro c hc
      simp only [summarize_rows]
      rw [← List.countP_eq_length_filter]
      exact List.mem_map.mpr ⟨c, hc, rfl⟩

/-- Claim C8's witness: the spec's example — `price` null in 2 of 5
preview rows gives the pair `(price, 2)` and row count 5. -/
theorem C8_summarize_rows_witness :
    (summarize_rows ([[(("price").toList, some 1)], [(("price").toList, none)],
      [(("price").toList, some 2)], [(("price").toList, none)],
      [(("price").toList, some 3)]] : List (List (List Char × Option Nat)))).1 = 5 ∧
    ((("price").toList), 2) ∈
      (summarize_rows ([[(("price").toList, some 1)], [(("price").toList, none)],
        [(("price").toList, some 2)], [(("price").toList, none)],
        [(("price").toList, some 3)]] : List (List (List Char × Option Nat)))).2 := by
  have h := C8_summarize_rows Nat
    ([[(("price").toList, some 1)], [(("price").toList, none)],
      [(("price").toList, some 2)], [(("price").toList, none)],
      [(("price").toList, some 3)]])
  obtain ⟨-, hlen, hmem⟩ := h
  constructor
  · rw [hlen]
    decide
  · have hm := (hmem [(("price").toList, some 1)]
      [[(("price").toList, none)], [(("price").toList, some 2)],
        [(("price").toList, none)], [(("price").toList, some 3)]] rfl).2
      (("price").toList) (by decide)
    have heq : (([[(("price").toList, some 1)], [(("price").toList, none)],
        [(("price").toList, some 2)], [(("price").toList, none)],
        [(("price").toList, some 3)]] : List (List (List Char × Option Nat))).filter
          (fun r => isNullAt r (("price").toList))).length = 2 := by decide
    rw [heq] at hm
    exact hm

/-- Claim C9, confirmed.  Running the validator on an accepted result
accepts and returns it unchanged: every check that held of the input
still holds of the (possibly rewritten, already stripped) result, and
the result's limit numbers never exceed the cap, so no further rewrite
happens. -/
theorem C9_validator_idempotent (maxRows : Nat) (sql r : List Char)
    (h : validate_sql maxRows sql = .ok r) :
    validate_sql maxRows r = .ok r := by
  obtain ⟨hne, h1, h2, h3, h4, h5, hcase⟩ := validate_sql_ok_inv h
  have hs : pyStrip (pyStrip sql) = pyStrip sql := pyStrip_idem sql
  have hd : natDigits maxRows ≠ [] := natDigits_ne_nil maxRows
  have hdall : ∀ c ∈ natDigits maxRows, isDigitB c = true :=
    natDigits_all_digits maxRows
  rcases hcase with ⟨lim, hfl, hlt, hr⟩ | ⟨hr, hbound⟩
  · subst hr
    have hstrip : pyStrip (subLimit (natDigits maxRows) false (pyStrip sql)) =
        subLimit (natDigits maxRows) false (pyStrip sql) :=
      pyStrip_subLimit (natDigits maxRows) hd hdall hs
    have h0' : subLimit (natDigits maxRows) false (pyStrip sql) ≠ [] :=
      subLimit_ne_nil (startsKw_ne_nil h1)
    have h1' : startsKw (pyStrip (subLimit (natDigits maxRows) false (pyStrip sql))) =
        true := by
      rw [hstrip, startsKw_subLimit (natDigits maxRows) hd hdall (pyStrip sql)]
      exact h1
    have h2' : containsBanned
        (pyStrip (subLimit (natDigits maxRows) false (pyStrip sql))) = false := by
      rw [hstrip, containsBanned_subLimit (natDigits maxRows) hd hdall (pyStrip sql)]
      exact h2
    have h3' : singleStatement
        (pyStrip (subLimit (natDigits maxRows) false (pyStrip sql))) = true := by
      rw [singleStatement_pyStrip, singleStatement_eq_segCount, hstrip,
        segCount_subLimit (natDigits maxRows) hd hdall (pyStrip sql) false false]
      rw [singleStatement_eq_segCount, hs] at h3
      exact h3
    have h4' : fromClausePresent
          (lowerStr (pyStrip (subLimit (natDigits maxRows) false (pyStrip sql)))) =
            false ∨
        containsSub martLit
          (lowerStr (pyStrip (subLimit (natDigits maxRows) false (pyStrip sql)))) =
            true := by
      rcases h4 with h4 | h4
      · refine Or.inl ?_
        rw [hstrip, fromClausePresent_subLimit hd hdall (pyStrip sql)]
        exact h4
      · refine Or.inr ?_
        rw [hstrip, containsSub_mart_subLimit hd hdall (pyStrip sql)]
        exact h4
    have h5' : searchWord limitKw false
        (lowerStr (pyStrip (subLimit (natDigits maxRows) false (pyStrip sql)))) =
          true := by
      rw [hstrip, searchWord_lower]
      apply searchWord_limit_of_limitNums
      rw [limitNums_subLimit (natDigits maxRows) hd hdall false (pyStrip sql)]
      have hnn : limitNums false (pyStrip sql) ≠ [] := by
        rw [← limitNums_lower]
        intro hx
        rw [firstLimitNum_eq_head, hx] at hfl
        simp at hfl
      simp [hnn]
    have h6' : ∀ lim', firstLimitNum false
        (lowerStr (pyStrip (subLimit (natDigits maxRows) false (pyStrip sql)))) =
          some lim' → lim' ≤ maxRows := by
      intro lim' hl
      rw [hstrip, firstLimitNum_eq_head, limitNums_lower,
        limitNums_subLimit (natDigits maxRows) hd hdall false (pyStrip sql),
        List.head?_map] at hl
      cases hh : (limitNums false (pyStrip sql)).head? with
      | none =>
        rw [hh] at hl
        simp at hl
      | some k =>
        rw [hh] at hl
        simp only [Option.map_some'] at hl
        injection hl with hl'
        rw [← hl', digitsVal_natDigits]
    have hres := validate_sql_ok_build h0' h1' h2' h3' h4' h5' h6'
    rw [hstrip] at hres
    exact hres
  · subst hr
    have h0' : pyStrip sql ≠ [] := startsKw_ne_nil h1
    have h1' : startsKw (pyStrip (pyStrip sql)) = true := by rw [hs]; exact h1
    have h2' : containsBanned (pyStrip (pyStrip sql)) = false := by rw [hs]; exact h2
    have h3' : singleStatement (pyStrip (pyStrip sql)) = true := by
      rw [singleStatement_pyStrip]
      exact h3
    have h4' : fromClausePresent (lowerStr (pyStrip (pyStrip sql))) = false ∨
        containsSub martLit (lowerStr (pyStrip (pyStrip sql))) = true := by
      rw [hs]
      exact h4
    have h5' : searchWord limitKw false (lowerStr (pyStrip (pyStrip sql))) = true := by
      rw [hs]
      exact h5
    have h6' : ∀ lim', firstLimitNum false (lowerStr (pyStrip (pyStrip sql))) =
        some lim' → lim' ≤ maxRows := by
      rw [hs]
      exact hbound
    have hres := validate_sql_ok_build h0' h1' h2' h3' h4' h5' h6'
    rw [hs] at hres
    exact hres

/-- Claim C9's witness: re-validating the capped spec example returns it
unchanged. -/
theorem C9_validator_idempotent_witness :
    validate_sql 2000 (("SELECT * FROM mart.fact_listings LIMIT 2000").toList) =
      .ok (("SELECT * FROM mart.fact_listings LIMIT 2000").toList) :=
  C9_validator_idempotent 2000
    (("SELECT * FROM mart.fact_listings LIMIT 100000").toList)
    (("SELECT * FROM mart.fact_listings LIMIT 2000").toList) (by decide)

/-- Claim C10, confirmed.  On nonempty input the null-count keys are
exactly the first row's columns in order, every count is at most the
reported row count, and a missing column reads as null exactly like a
stored null value (only a present non-null value reads as non-null). -/
theorem C10_summarize_invariants (V : Type) (r0 : List (List Char × Option V))
    (rest : List (List (List Char × Option V))) :
    ((summarize_rows (r0 :: rest)).2.map Prod.fst = r0.map Prod.fst) ∧
    (∀ p ∈ (summarize_rows (r0 :: rest)).2, p.2 ≤ (summarize_rows (r0 :: rest)).1) ∧
    (∀ (r : List (List Char × Option V)) (c : List Char),
      (rowGet r c = none → isNullAt r c = true) ∧
      (rowGet r c = some none → isNullAt r c = true) ∧
      (∀ v, rowGet r c = some (some v) → isNullAt r c = false)) := by
  refine ⟨?_, ?_, ?_⟩
  · simp only [summarize_rows, List.map_map]
    have hcomp : (Prod.fst ∘ (fun c => (c, (r0 :: rest).countP (fun r => isNullAt r c))) ∘
        (Prod.fst : List Char × Option V → List Char)) = Prod.fst := rfl
    rw [hcomp]
  · intro p hp
    simp only [summarize_rows, List.map_map, List.mem_map] at hp
    obtain ⟨kv, -, hkv⟩ := hp
    rw [← hkv]
    simp only [summarize_rows, Function.comp]
    exact List.countP_le_length _
  · intro r c
    refine ⟨?_, ?_, ?_⟩
    · intro hg
      simp [isNullAt, hg]
    · intro hg
      simp [isNullAt, hg]
    · intro v hg
      simp [isNullAt, hg]
